import Mathlib

/-!
# Verification of the cross-file renaming core of `py-codestyle-conv`

This development shallowly embeds the parts of the Python source that the
specification's claims are about:

* `src/core/code_transformer.py`  — the formatting-preserving text
  substitution pass (`apply_transformations_preserve_formatting`);
* `src/utils/naming_conventions.py` — the case-conversion functions;
* `src/core/rule_engine.py` — rename-plan generation, naming policy
  dispatch and the local/cross-file merge;
* `src/core/file_writer.py` / `src/core/output_manager.py` — crash-safe
  in-place writes and the confirmation/apply loop;
* `src/core/cross_file_processor.py` / `src/core/output_manager.py` — the
  definition/usage grouping;
* `src/core/cross_file_transformer.py` — import-statement rewriting;
* `src/core/global_symbol_tracker.py` — the project index build.

Python strings are modelled as `List Char`.  The regular expressions used
by the source are all of a fixed simple shape (literal identifiers guarded
by `\b` word boundaries, plus two group patterns used by the case
converter); each is embedded as a left-to-right scanner with exactly
Python's leftmost, non-overlapping match semantics.  `\w` (hence `\b`) is
modelled as ASCII `[A-Za-z0-9_]`, which coincides with Python's semantics
on ASCII text; theorems that quantify over arbitrary file contents carry
an ASCII hypothesis where this matters.
-/

set_option maxHeartbeats 1000000

abbrev Str := List Char

/-- ASCII word character, the `\w` class of the source's regexes. -/
def isWordChar (c : Char) : Bool :=
  (('a' ≤ c && c ≤ 'z') || ('A' ≤ c && c ≤ 'Z') || ('0' ≤ c && c ≤ '9') || c = '_')

/-- Word-character test on an optional char; `none` (string edge) counts as
non-word, as in Python's `\b`. -/
def wordOpt : Option Char → Bool
  | none => false
  | some c => isWordChar c

/-- All characters of a string are word characters (an identifier chunk). -/
def allWord (s : Str) : Bool := s.all isWordChar

/-- Maximal leading run of word characters, together with the remainder. -/
def wordRun : Str → Str × Str
  | [] => ([], [])
  | c :: t => if isWordChar c then ((c :: (wordRun t).1), (wordRun t).2) else ([], c :: t)

/-- Emit the pending identifier accumulator as a token (if nonempty). -/
def flushTok (acc : Str) : List Str := if acc = [] then [] else [acc]

/-- Accumulator-style tokenizer (structural recursion on the string). -/
def tokensGo (acc : Str) : Str → List Str
  | [] => flushTok acc
  | c :: t => if isWordChar c then tokensGo (acc ++ [c]) t else flushTok acc ++ tokensGo [] t

/-- The maximal word tokens (identifier occurrences) of a string, in order. -/
def tokens (s : Str) : List Str := tokensGo [] s

/-- Emit the pending accumulator through `f` (if nonempty). -/
def flushSub (f : Str → Str) (acc : Str) : Str := if acc = [] then [] else f acc

/-- Accumulator-style per-token substitution (structural recursion). -/
def tokenSubstGo (f : Str → Str) (acc : Str) : Str → Str
  | [] => flushSub f acc
  | c :: t =>
    if isWordChar c then tokenSubstGo f (acc ++ [c]) t
    else flushSub f acc ++ c :: tokenSubstGo f [] t

/-- Rebuild a string from its run decomposition, mapping each maximal word
token through `f` and keeping every separator character.  This is the
specification-side picture of a boundary-safe whole-identifier
substitution. -/
def tokenSubst (f : Str → Str) (s : Str) : Str := tokenSubstGo f [] s

/-!
## `re.sub(rf'\b{old}\b', new, s)` — the boundary-guarded literal substitution

`CodeTransformer.apply_transformations_preserve_formatting`
(`src/core/code_transformer.py`, lines 94–128) and
`CrossFileTransformer._update_symbol_usages`
(`src/core/cross_file_transformer.py`, lines 320–369) replace identifiers
with `re.sub` on the escaped old name wrapped in `\b` anchors.  The scanner
below is that `re.sub`: it walks the subject left to right, tracking the
previous subject character for the leading boundary test; on a match it
emits the replacement and resumes after the matched text (matches are
non-overlapping and boundary tests read the original subject characters).
-/

/-- The last character skipped while stepping over `w`, else `p`. -/
def lastOpt (w : Str) (p : Option Char) : Option Char :=
  match w with
  | [] => p
  | c :: t => some (t.getLastD c)

/-- Scanner for `re.sub(rf'\b{(o :: os)}\b', new, ·)`; `prev` is the subject
character just before the scan position (`none` at the very start).  After a
match the replacement is emitted at once and the matched subject characters
are consumed one by one under the `skip` counter (this keeps the recursion
structural; the consumed characters are exactly the pattern, so `prev`
tracking stays correct). -/
def subWordGo (o : Char) (os new : Str) : Option Char → Nat → Str → Str
  | _, _, [] => []
  | _, Nat.succ k, c :: t => subWordGo o os new (some c) k t
  | prev, 0, c :: t =>
    if (o :: os).isPrefixOf (c :: t)
        && (wordOpt prev != isWordChar c)
        && (isWordChar (os.getLastD o) != wordOpt ((c :: t).drop (os.length + 1)).head?)
    then new ++ subWordGo o os new (some c) os.length t
    else c :: subWordGo o os new (some c) 0 t

def subWordAux (o : Char) (os new : Str) (prev : Option Char) (s : Str) : Str :=
  subWordGo o os new prev 0 s

/-- `re.sub(rf'\b{re.escape(old)}\b', new, s)` for a literal `old`.
The empty pattern never arises: rename keys are identifiers. -/
def subWord (old new : Str) (s : Str) : Str :=
  match old with
  | [] => s
  | o :: os => subWordAux o os new none s

/-- Scanner for the secondary attribute pattern
`re.sub(rf'\.{re.escape(old)}\b', '.' + new, s)` of
`apply_transformations_preserve_formatting` (there is no leading `\b`;
the literal dot provides the left context).  Matched characters after the
dot are consumed under the `skip` counter, as in `subWordGo`. -/
def subDotGo (o : Char) (os new : Str) : Nat → Str → Str
  | _, [] => []
  | Nat.succ k, _ :: t => subDotGo o os new k t
  | 0, c :: t =>
    if (c = '.' : Bool) && (o :: os).isPrefixOf t
        && (isWordChar (os.getLastD o) != wordOpt ((t.drop (os.length + 1)).head?))
    then '.' :: (new ++ subDotGo o os new (os.length + 1) t)
    else c :: subDotGo o os new 0 t

def subDotWordAux (o : Char) (os new : Str) (s : Str) : Str :=
  subDotGo o os new 0 s

def subDotWord (old new : Str) (s : Str) : Str :=
  match old with
  | [] => s
  | o :: os => subDotWordAux o os new s

/-!
## `apply_transformations_preserve_formatting`

`src/core/code_transformer.py`, lines 94–128: the rename map (a Python
dict, modelled as an association list with distinct keys in insertion
order) is sorted by descending old-name length (Python's `sorted` is
stable, with `reverse=True`), and for each pair the word-boundary pattern
and then the attribute pattern are applied to the whole text.
-/

/-- One iteration of the substitution loop: first
`re.sub(rf'\b{old}\b', new, ·)`, then `re.sub(rf'\.{old}\b', '.' + new, ·)`. -/
def applyPair (s : Str) (p : Str × Str) : Str :=
  subDotWord p.1 p.2 (subWord p.1 p.2 s)

/-- Stable insertion into a length-descending list (equal lengths keep
their original relative order, as Python's stable sort does). -/
def insLenDesc (p : Str × Str) : List (Str × Str) → List (Str × Str)
  | [] => [p]
  | q :: l => if p.1.length < q.1.length then q :: insLenDesc p l else p :: q :: l

/-- `sorted(transformations.items(), key=lambda x: len(x[0]), reverse=True)`. -/
def sortLenDesc : List (Str × Str) → List (Str × Str)
  | [] => []
  | p :: l => insLenDesc p (sortLenDesc l)

/-- `CodeTransformer.apply_transformations_preserve_formatting`
(`src/core/code_transformer.py`, lines 94–128). -/
def apply_transformations_preserve_formatting (ts : List (Str × Str)) (s : Str) : Str :=
  if ts.isEmpty then s
  else (sortLenDesc ts).foldl applyPair s

/-- Dictionary lookup in the rename map. -/
def renameLookup (ts : List (Str × Str)) (r : Str) : Str :=
  match ts.find? (fun p => p.1 == r) with
  | some p => p.2
  | none => r

/-- Sequential application of the pairs to one token, in list order. -/
def foldRename (ps : List (Str × Str)) (r : Str) : Str :=
  ps.foldl (fun w p => if w = p.1 then p.2 else w) r

/-- Well-formedness of a batch of rename pairs: old and new names are
nonempty identifier strings, and (the freshness proviso) no new name
collides with any old name of the batch. -/
def renamePairsOk (ts : List (Str × Str)) : Prop :=
  ∀ p ∈ ts, p.1 ≠ [] ∧ allWord p.1 = true ∧ p.2 ≠ [] ∧ allWord p.2 = true ∧
    ∀ q ∈ ts, p.2 ≠ q.1

/-!
## Case conversion — `NamingConverter` (`src/utils/naming_conventions.py`)

Python string predicates and case mappings are embedded character-wise
with ASCII semantics (`str.lower`/`str.upper`/`str.islower`/… agree with
these on ASCII text; the subject's identifiers are ASCII).  Lean's
`Char.toLower`/`Char.toUpper` are exactly the ASCII mapping.
-/

def isLowerCh (c : Char) : Bool := 'a' ≤ c && c ≤ 'z'

def isUpperCh (c : Char) : Bool := 'A' ≤ c && c ≤ 'Z'

def isDigitCh (c : Char) : Bool := '0' ≤ c && c ≤ '9'

def isAlphaCh (c : Char) : Bool := isLowerCh c || isUpperCh c

/-- ASCII cased characters are exactly the letters. -/
def isCasedCh (c : Char) : Bool := isAlphaCh c

/-- `str.lower()` character-wise (ASCII). -/
def pyLower (s : Str) : Str := s.map Char.toLower

/-- `str.upper()` character-wise (ASCII). -/
def pyUpper (s : Str) : Str := s.map Char.toUpper

/-- `str.islower()`: at least one cased character, and every cased
character lowercase. -/
def pyIsLower (s : Str) : Bool :=
  s.any isCasedCh && s.all (fun c => !isCasedCh c || isLowerCh c)

/-- `str.isupper()`. -/
def pyIsUpper (s : Str) : Bool :=
  s.any isCasedCh && s.all (fun c => !isCasedCh c || isUpperCh c)

/-- `str.isalpha()` (false on the empty string). -/
def pyIsAlpha (s : Str) : Bool := !s.isEmpty && s.all isAlphaCh

/-- `'_' in name`. -/
def hasUnd (s : Str) : Bool := s.any (fun c => c = '_')

/-- `str.capitalize()`: first character uppercased, the rest lowercased. -/
def pyCapitalize (s : Str) : Str :=
  match s with
  | [] => []
  | c :: t => c.toUpper :: pyLower t

/-- `str.split('_')` (keeps empty pieces, as Python does). -/
def splitUnd : Str → List Str
  | [] => [[]]
  | c :: t =>
    if c = '_' then [] :: splitUnd t
    else
      match splitUnd t with
      | [] => [[c]]
      | w :: ws => (c :: w) :: ws

/-- `re.sub('([a-z0-9])([A-Z])', r'\1_\2', s)`: a lowercase letter or digit
immediately followed by an uppercase letter gets an underscore inserted;
matches are leftmost and non-overlapping (the scan resumes after the pair). -/
def sub1 : Str → Str
  | [] => []
  | [c] => [c]
  | a :: b :: t =>
    if (isLowerCh a || isDigitCh a) && isUpperCh b
    then a :: '_' :: b :: sub1 t
    else a :: sub1 (b :: t)

/-- `re.sub('([A-Z]+)([A-Z][a-z])', r'\1_\2', s)`.  A match needs an
uppercase run of length ≥ 2 immediately followed by a lowercase letter
(greedy `[A-Z]+` backtracks exactly one character to satisfy
`[A-Z][a-z]`); the underscore is inserted before the run's last uppercase
letter and the scan resumes after the lowercase letter.  `acc` is the
pending uppercase run. -/
def sub2Go (acc : Str) : Str → Str
  | [] => acc
  | c :: t =>
    if isUpperCh c then sub2Go (acc ++ [c]) t
    else if isLowerCh c && acc.length ≥ 2 then
      acc.dropLast ++ '_' :: acc.getLastD c :: c :: sub2Go [] t
    else acc ++ c :: sub2Go [] t

def sub2 (s : Str) : Str := sub2Go [] s

/-- `NamingConverter.to_snake_case` (`src/utils/naming_conventions.py`,
lines 13–43). -/
def to_snake_case (name : Str) : Str :=
  if hasUnd name && pyIsLower name then name
  else pyLower (sub2 (sub1 name))

/-- `NamingConverter.to_camel_case` (lines 45–72). -/
def to_camel_case (name : Str) : Str :=
  if hasUnd name then
    match splitUnd (pyLower name) with
    | [] => name
    | p0 :: rest => p0 ++ (rest.map pyCapitalize).flatten
  else
    match name with
    | [] => []
    | c :: t => c.toLower :: t

/-- `NamingConverter.to_pascal_case` (lines 74–99); note the `if word`
filter dropping empty pieces. -/
def to_pascal_case (name : Str) : Str :=
  if hasUnd name then
    (((splitUnd (pyLower name)).filter (fun w => !w.isEmpty)).map pyCapitalize).flatten
  else
    match name with
    | [] => []
    | c :: t => c.toUpper :: t

/-- `NamingConverter.to_upper_case` (lines 101–125). -/
def to_upper_case (name : Str) : Str :=
  if hasUnd name then pyUpper name
  else pyUpper (to_snake_case name)

/-- `NamingConverter.detect_naming_convention` (lines 127–176), with its
branch order preserved. -/
def detect_naming_convention (name : Str) : Str :=
  if name.isEmpty then ("unknown").data
  else if pyIsUpper name && (hasUnd name || pyIsAlpha name) then ("UPPER_CASE").data
  else if hasUnd name && pyIsLower name then ("snake_case").data
  else if !hasUnd name && isUpperCh (name.headD ' ') && name.any isLowerCh then
    ("PascalCase").data
  else if !hasUnd name && isLowerCh (name.headD ' ') && name.any isUpperCh then
    ("camelCase").data
  else if pyIsLower name && !hasUnd name then ("snake_case").data
  else if pyIsUpper name && !hasUnd name then ("UPPER_CASE").data
  else ("mixed").data

/-!
## Local/cross-file rename merge (`src/core/rule_engine.py`, line 288)

`combined_transformations = {**local_transformations, **cross_file_transformations}`
Python dicts are association lists with distinct keys in insertion order;
`{**a, **b}` builds a fresh dict from `a`'s items and then `b`'s, later
keys overriding earlier ones in place.
-/

/-- Association-list (dict) lookup. -/
def alistGet {α : Type} (d : List (Str × α)) (k : Str) : Option α :=
  (d.find? (fun p => p.1 == k)).map Prod.snd

/-- Insert one item: update in place if the key exists (Python dicts keep
the original key position), else append. -/
def dictInsert {α : Type} (kv : Str × α) : List (Str × α) → List (Str × α)
  | [] => [kv]
  | p :: d => if p.1 = kv.1 then kv :: d else p :: dictInsert kv d

/-- `{**a, **b}`. -/
def pyDictMerge {α : Type} (a b : List (Str × α)) : List (Str × α) :=
  b.foldl (fun d kv => dictInsert kv d) (a.foldl (fun d kv => dictInsert kv d) [])

/-!
## Rename-plan generation (`src/core/rule_engine.py`)

`RuleEngine._get_transformed_name` (lines 552–597) dispatches on the
element kind through two literal dictionaries, checks the configured rule
and target convention, and calls `_convert_naming_convention`
(lines 599–631).  `_generate_global_transformations` (lines 143–184)
iterates the project definitions dict and emits one `GlobalTransformation`
per symbol whose computed new name is truthy and different from the
symbol name.  The `node`/`column` fields of `CodeElement` and the AST
handle play no role here and are omitted from the embedding.
-/

structure CodeElementM where
  name : Str
  element_type : Str
  line_number : Nat
  context : Str
deriving DecidableEq

structure ConfigM where
  ruleEnabled : Str → Bool
  namingConvention : Str → Option Str

structure SymbolDefinitionM where
  name : Str
  symbol_type : Str
  file_path : Str
  line_number : Nat
  context : Str
  element : CodeElementM
deriving DecidableEq

structure SymbolUsageM where
  name : Str
  usage_type : Str
  file_path : Str
  line_number : Nat
  context : Str
  module_context : Option Str
deriving DecidableEq

structure ImportStatementM where
  file_path : Str
  line_number : Nat
  import_type : Str
  module_name : Str
  imported_names : List Str
  aliases : List (Str × Str)
deriving DecidableEq

structure GlobalSymbolMapM where
  definitions : List (Str × List SymbolDefinitionM)
  usages : List (Str × List SymbolUsageM)
  imps : List ImportStatementM

/-- `str.lstrip('_')`. -/
def lstripUnd (s : Str) : Str := s.dropWhile (fun c => c = '_')

/-- `str.strip('_')`. -/
def stripUnd (s : Str) : Str := ((lstripUnd s).reverse.dropWhile (fun c => c = '_')).reverse

/-- `RuleEngine._to_pascal_case` (lines 658–666): identical to the utils
version except that empty pieces are not filtered before `capitalize`
(extensionally the same, since `''.capitalize() == ''`). -/
def ruleToPascalCase (name : Str) : Str :=
  if hasUnd name then ((splitUnd (pyLower name)).map pyCapitalize).flatten
  else
    match name with
    | [] => []
    | c :: t => c.toUpper :: t

/-- `RuleEngine._convert_naming_convention` (lines 599–631).
`_to_snake_case`, `_to_camel_case` and `_to_upper_case` (lines 633–675)
are verbatim copies of the `NamingConverter` implementations already
embedded above. -/
def convertNamingConvention (name : Str) (conv : Str) : Str :=
  if conv = ("snake_case").data then to_snake_case name
  else if conv = ("camelCase").data then to_camel_case name
  else if conv = ("PascalCase").data then ruleToPascalCase name
  else if conv = ("UPPER_CASE").data then to_upper_case name
  else if conv = ("_snake_case").data then '_' :: to_snake_case (lstripUnd name)
  else if conv = ("_camelCase").data then '_' :: to_camel_case (lstripUnd name)
  else if conv = ("__snake_case__").data then
    '_' :: '_' :: (to_snake_case (stripUnd name) ++ ('_' :: '_' :: []))
  else if conv = ("__camelCase__").data then
    '_' :: '_' :: (to_camel_case (stripUnd name) ++ ('_' :: '_' :: []))
  else name

/-- `element_type_mapping` (lines 563–571). -/
def elementTypeConfigKey (et : Str) : Option Str :=
  if et = ("variable").data then some (("variables").data)
  else if et = ("function").data then some (("functions").data)
  else if et = ("class").data then some (("classes").data)
  else if et = ("constant").data then some (("constants").data)
  else if et = ("method").data then some (("functions").data)
  else if et = ("private_method").data then some (("private_methods").data)
  else if et = ("dunder_method").data then some (("dunder_methods").data)
  else none

/-- `rule_mapping` (lines 574–582). -/
def elementTypeRule (et : Str) : Option Str :=
  if et = ("variable").data then some (("variable_naming").data)
  else if et = ("function").data then some (("function_naming").data)
  else if et = ("class").data then some (("class_naming").data)
  else if et = ("constant").data then some (("constant_naming").data)
  else if et = ("method").data then some (("function_naming").data)
  else if et = ("private_method").data then some (("private_method_naming").data)
  else if et = ("dunder_method").data then some (("dunder_method_naming").data)
  else none

/-- `RuleEngine._get_transformed_name` (lines 552–597).  An empty target
convention string is falsy in Python, hence the `isEmpty` guard. -/
def getTransformedName (cfg : ConfigM) (e : CodeElementM) : Option Str :=
  match elementTypeConfigKey e.element_type, elementTypeRule e.element_type with
  | some ck, some rn =>
    if cfg.ruleEnabled rn then
      match cfg.namingConvention ck with
      | some conv => if conv.isEmpty then none else some (convertNamingConvention e.name conv)
      | none => none
    else none
  | _, _ => none

/-- `'test' in str(path).lower()`. -/
def containsSub (needle : Str) : Str → Bool
  | [] => needle.isEmpty
  | c :: t => needle.isPrefixOf (c :: t) || containsSub needle t

def isTestPath (d : SymbolDefinitionM) : Bool :=
  containsSub (("test").data) (pyLower d.file_path)

/-- `str.split('/')` for `Path.parts` counting (package-root `/` handling
is irrelevant to the ordering heuristic, which only compares segment
counts). -/
def splitSlash : Str → List Str
  | [] => [[]]
  | c :: t =>
    if c = '/' then [] :: splitSlash t
    else
      match splitSlash t with
      | [] => [[c]]
      | w :: ws => (c :: w) :: ws

def pathPartsLen (p : Str) : Nat := ((splitSlash p).filter (fun w => !w.isEmpty)).length

/-- Stable ascending insertion by path-segment count
(`sorted(non_test_defs, key=lambda d: len(d.file_path.parts))`). -/
def insByParts (x : SymbolDefinitionM) : List SymbolDefinitionM → List SymbolDefinitionM
  | [] => [x]
  | y :: l =>
    if pathPartsLen x.file_path ≤ pathPartsLen y.file_path then x :: y :: l
    else y :: insByParts x l

def sortByParts : List SymbolDefinitionM → List SymbolDefinitionM
  | [] => []
  | x :: l => insByParts x (sortByParts l)

/-- `RuleEngine._get_primary_definition` (lines 186–208). -/
def getPrimaryDefinition (defs : List SymbolDefinitionM) : Option SymbolDefinitionM :=
  match defs with
  | [] => none
  | [d] => some d
  | d :: ds =>
    match (d :: ds).filter (fun x => !isTestPath x) with
    | [] => some d
    | y :: ys => (insByParts y (sortByParts ys)).head?

structure GlobalTransformationM where
  old_name : Str
  new_name : Str
  symbol_type : Str
  definition_file : Str
  affected_files : List Str
  transformation_type : Str
deriving DecidableEq

/-- `RuleEngine._get_affected_files` (lines 210–235); the source collects
the paths into a Python set — the embedding deduplicates the same union. -/
def getAffectedFiles (m : GlobalSymbolMapM) (symbol : Str) : List Str :=
  (((m.definitions.find? (fun p => p.1 == symbol)).map Prod.snd).getD []).map
      (fun d => d.file_path)
    ++ (((m.usages.find? (fun p => p.1 == symbol)).map Prod.snd).getD []).map
      (fun u => u.file_path)
    ++ (m.imps.filter (fun i => i.imported_names.contains symbol)).map (fun i => i.file_path)
  |>.eraseDups

/-- The body of `_generate_global_transformations`' per-symbol loop
(lines 156–181): at most one transformation per definitions-dict entry. -/
def genSymbolTransformation (cfg : ConfigM) (m : GlobalSymbolMapM)
    (symbolName : Str) (defs : List SymbolDefinitionM) : Option GlobalTransformationM :=
  match defs with
  | [] => none
  | _ :: _ =>
    match getPrimaryDefinition defs with
    | none => none
    | some pd =>
      match getTransformedName cfg pd.element with
      | none => none
      | some newName =>
        if !newName.isEmpty && newName ≠ symbolName then
          some {
            old_name := symbolName
            new_name := newName
            symbol_type := pd.symbol_type
            definition_file := pd.file_path
            affected_files := getAffectedFiles m symbolName
            transformation_type := ("naming_convention").data }
        else none

/-- `RuleEngine._generate_global_transformations` (lines 143–184). -/
def generateGlobalTransformations (cfg : ConfigM) (m : GlobalSymbolMapM) :
    List GlobalTransformationM :=
  m.definitions.foldl (fun acc kv =>
    match genSymbolTransformation cfg m kv.1 kv.2 with
    | some t => acc ++ [t]
    | none => acc) []

def cfgC8 : ConfigM := ⟨fun _ => false, fun _ => none⟩

def elemC8 : CodeElementM :=
  ⟨("MAX_SIZE").data, ("constant").data, 3, ("MAX_SIZE = 10").data⟩

def defC8 : SymbolDefinitionM :=
  ⟨("MAX_SIZE").data, ("constant").data, ("a.py").data, 3, ("MAX_SIZE = 10").data, elemC8⟩

def mapC8 : GlobalSymbolMapM := ⟨[((("MAX_SIZE").data), [defC8])], [], []⟩

/-! ## C2 / C10 — `FileWriter._write_in_place` (src/core/file_writer.py 71–95)

The relevant slice of the file system is modelled as a partial map from
paths to file contents.  `_write_in_place` first copies the original file
to its sibling backup (`with_suffix(suffix + '.backup')`, i.e. the original
path with `.backup` appended), then opens the target for writing.  The
write either completes (`WriteAttempt.ok`) or raises after leaving some
partial bytes behind (`WriteAttempt.fail leftover`); in the latter case the
`except` block restores the original from the backup, unlinks the backup
and re-raises.  The boolean in the result is `true` iff the call returned
normally (`false` = the exception propagated).  The model is used under
the hypothesis that the target file exists (otherwise `shutil.copy2`
itself would raise before anything is written, leaving the state
unchanged — not a case the claims speak about). -/

def FSm : Type := Str → Option Str

def fsSet (fs : FSm) (p : Str) (v : Option Str) : FSm :=
  fun q => if q = p then v else fs q

/-- `file_path.with_suffix(file_path.suffix + '.backup')` appends
`.backup` to the path. -/
def backupPath (p : Str) : Str := p ++ (".backup").data

inductive WriteAttempt : Type where
  | ok : WriteAttempt
  | fail (leftover : Str) : WriteAttempt

/-- `_write_in_place` (lines 82–95): copy original to backup, attempt the
write, unlink the backup on success; on failure restore from the backup,
unlink it and re-raise. -/
def writeInPlace (fs : FSm) (p : Str) (newContent : Str) (att : WriteAttempt) :
    FSm × Bool :=
  let bp := backupPath p
  let fs1 := fsSet fs bp (fs p)
  match att with
  | .ok =>
    let fs2 := fsSet fs1 p (some newContent)
    (fsSet fs2 bp none, true)
  | .fail leftover =>
    let fs2 := fsSet fs1 p (some leftover)
    match fs2 bp with
    | some b => (fsSet (fsSet fs2 p (some b)) bp none, false)
    | none => (fs2, false)

def fsC2 : FSm := fun q => if q = ("a.py").data then some ("old").data else none

/-! ## C3 — `CrossFileOutputManager.process_cross_file_results`
(src/core/output_manager.py 104–122, 219–285, 348–371, 382–396)

The per-group confirmation loop.  The confirmation channel
(`show_diff_gui` / console fallback) is modelled as a stream of decisions
indexed by how many times it has been consulted: `yes toAll` = apply
(setting `apply_to_all_definitions` when `toAll`), `no toAll` = skip
(setting `skip_all_definitions` when `toAll`), `quit` = the `None` return
that sets `quit_requested` and breaks the loop.  Writes are in-place mode
and assumed to succeed, so `_write_file_changes` on a result sets the
target to the transformed code and removes the sibling backup
(`applyWrite`).  The `CrossFileResult` bookkeeping is irrelevant to the
claim (which is about file contents) and is not modelled; the `break` on
`USER_QUIT` and the loop-top `quit_requested` check are together modelled
by the `quitReq` flag that makes every later iteration a no-op. -/

inductive GuiDecision : Type where
  | yes (toAll : Bool) : GuiDecision
  | no (toAll : Bool) : GuiDecision
  | quit : GuiDecision
deriving DecidableEq

structure ProcessingResultM where
  file_path : Str
  original_code : Str
  transformed_code : Str
  changes_made : List Str
  success : Bool
deriving DecidableEq

structure FileGroupM where
  definition_file : ProcessingResultM
  usage_files : List ProcessingResultM
  changed_symbols : List Str
deriving DecidableEq

/-- Successful `_write_in_place` (382–396): write transformed code, unlink
the backup. -/
def applyWrite (fs : FSm) (r : ProcessingResultM) : FSm :=
  fsSet (fsSet fs r.file_path (some r.transformed_code)) (backupPath r.file_path) none

structure ApplyState where
  fs : FSm
  applyAll : Bool
  skipAll : Bool
  quitReq : Bool
  idx : Nat

/-- `_process_definition_file` (219–285): returns the new state, whether
the definition was applied (success and not user-skipped), and whether the
user quit. -/
def processDefinitionFile (dec : Nat → GuiDecision) (st : ApplyState)
    (g : FileGroupM) : ApplyState × Bool × Bool :=
  if st.applyAll then
    ({ st with fs := applyWrite st.fs g.definition_file }, true, false)
  else if st.skipAll then (st, false, false)
  else
    match dec st.idx with
    | .quit => ({ st with idx := st.idx + 1, quitReq := true }, false, true)
    | .yes toAll =>
      ({ st with
          idx := st.idx + 1
          applyAll := toAll
          fs := applyWrite st.fs g.definition_file }, true, false)
    | .no toAll => ({ st with idx := st.idx + 1, skipAll := toAll }, false, false)

/-- One iteration of the loop body (105–120): skip everything once quit
was requested, otherwise process the definition file and, if it was
applied, auto-apply every cascaded usage file. -/
def processGroup (dec : Nat → GuiDecision) (st : ApplyState) (g : FileGroupM) :
    ApplyState :=
  if st.quitReq then st
  else
    let r := processDefinitionFile dec st g
    if r.2.1 then { r.1 with fs := g.usage_files.foldl applyWrite r.1.fs }
    else r.1

def processGroups (dec : Nat → GuiDecision) (gs : List FileGroupM)
    (st : ApplyState) : ApplyState :=
  gs.foldl (processGroup dec) st

/-- All paths a group's processing can touch (targets and their backups). -/
def groupPaths (g : FileGroupM) : List Str :=
  (g.definition_file :: g.usage_files).flatMap
    (fun r => [r.file_path, backupPath r.file_path])

def touchedPaths (gs : List FileGroupM) : List Str := gs.flatMap groupPaths

def decC3 : Nat → GuiDecision :=
  fun i => if i = 0 then GuiDecision.yes false else GuiDecision.quit

def fsC3 : FSm :=
  fun q =>
    if q = ("a.py").data then some ("A0").data
    else if q = ("b.py").data then some ("B0").data
    else if q = ("c.py").data then some ("C0").data
    else none

def raC3 : ProcessingResultM :=
  ⟨("a.py").data, ("A0").data, ("A1").data, [("Renamed class Foo to Bar").data], true⟩

def rbC3 : ProcessingResultM :=
  ⟨("b.py").data, ("B0").data, ("B1").data, [("Renamed class Baz to Qux").data], true⟩

def rcC3 : ProcessingResultM :=
  ⟨("c.py").data, ("C0").data, ("C1").data, [("Updated usage of Baz (cross-file)").data], true⟩

def g1C3 : FileGroupM := ⟨raC3, [], [("Foo").data]⟩

def g2C3 : FileGroupM := ⟨rbC3, [rcC3], [("Baz").data]⟩

def st0C3 : ApplyState := ⟨fsC3, false, false, false, 0⟩

/-! ## C6 — `CrossFileOutputManager._group_definition_and_usage_files`
(src/core/output_manager.py 130–217)

Definition files are results with at least one change lacking the
`(cross-file)` marker.  Changed symbols are extracted from each change
with `re.search("'([^']+)' to '([^']+)'")` (first group).  Each definition
file owns a group collecting every usage file that mentions any of its
changed symbols; usage files linked to no group get a singleton group of
their own. -/

def apos : Char := Char.ofNat 39

/-- `_is_definition_file` (186–195). -/
def isDefinitionFile (r : ProcessingResultM) : Bool :=
  r.changes_made.any (fun ch => !(containsSub (("(cross-file)").data) ch))

/-- Match `'([^']+)'` at the start of the string, returning the group and
the remainder. -/
def tryQuoted (s : Str) : Option (Str × Str) :=
  match s with
  | [] => none
  | c :: t =>
    if c = apos then
      let run := t.takeWhile (fun d => !(d = apos))
      match t.drop run.length with
      | d :: r => if d = apos ∧ ¬ (run = []) then some (run, r) else none
      | [] => none
    else none

/-- Match the full pattern `'([^']+)' to '([^']+)'` at the start of the
string, returning the first group. -/
def tryPat (s : Str) : Option Str :=
  match tryQuoted s with
  | some (g1, r1) =>
    if (" to ").data.isPrefixOf r1 then
      match tryQuoted (r1.drop 4) with
      | some _ => some g1
      | none => none
    else none
  | none => none

/-- `re.search`: leftmost match of the pattern. -/
def searchPat : Str → Option Str
  | [] => none
  | c :: t =>
    match tryPat (c :: t) with
    | some g => some g
    | none => searchPat t

/-- `_extract_changed_symbols` (197–209): the old name of every change
matching the pattern, in order. -/
def extractChangedSymbols (r : ProcessingResultM) : List Str :=
  r.changes_made.filterMap searchPat

/-- `_usage_file_references_symbols` (211–217). -/
def usageRefs (u : ProcessingResultM) (symbols : List Str) : Bool :=
  u.changes_made.any (fun ch => symbols.any (fun sym => containsSub sym ch))

def defFiles (rs : List ProcessingResultM) : List ProcessingResultM :=
  rs.filter isDefinitionFile

def usageResults (rs : List ProcessingResultM) : List ProcessingResultM :=
  rs.filter (fun r => !(isDefinitionFile r))

def mkGroup (rs : List ProcessingResultM) (d : ProcessingResultM) : FileGroupM :=
  ⟨d, (usageResults rs).filter (fun u => usageRefs u (extractChangedSymbols d)),
   extractChangedSymbols d⟩

def linkedPaths (rs : List ProcessingResultM) : List Str :=
  ((defFiles rs).map (mkGroup rs)).flatMap (fun g => g.usage_files.map (fun r => r.file_path))

def orphanFiles (rs : List ProcessingResultM) : List ProcessingResultM :=
  (usageResults rs).filter (fun u => !(decide (u.file_path ∈ linkedPaths rs)))

/-- `_group_definition_and_usage_files` (130–184). -/
def groupFiles (rs : List ProcessingResultM) : List FileGroupM :=
  (defFiles rs).map (mkGroup rs)
    ++ (orphanFiles rs).map (fun u => ⟨u, [], extractChangedSymbols u⟩)

def chD1C6 : Str :=
  ("Renamed function ").data ++ [apos] ++ ("old_func").data ++ [apos]
    ++ (" to ").data ++ [apos] ++ ("new_func").data ++ [apos]

def chD2C6 : Str :=
  ("Renamed class ").data ++ [apos] ++ ("old_cls").data ++ [apos]
    ++ (" to ").data ++ [apos] ++ ("new_cls").data ++ [apos]

def chU1C6 : Str :=
  ("Updated reference ").data ++ [apos] ++ ("old_func").data ++ [apos]
    ++ (" to ").data ++ [apos] ++ ("new_func").data ++ [apos]
    ++ (" (cross-file)").data

def chU2C6 : Str :=
  ("Updated reference ").data ++ [apos] ++ ("old_cls").data ++ [apos]
    ++ (" to ").data ++ [apos] ++ ("new_cls").data ++ [apos]
    ++ (" (cross-file)").data

def d1C6 : ProcessingResultM := ⟨("d1.py").data, ("x").data, ("y").data, [chD1C6], true⟩

def d2C6 : ProcessingResultM := ⟨("d2.py").data, ("x").data, ("y").data, [chD2C6], true⟩

def uC6 : ProcessingResultM := ⟨("u.py").data, ("x").data, ("y").data, [chU1C6, chU2C6], true⟩

def rsC6 : List ProcessingResultM := [d1C6, d2C6, uC6]

/-! ## C5 — `CrossFileTransformer._update_import_statements`
(src/core/cross_file_transformer.py 230–260, the `ast.ImportFrom` branch)

The function parses the file and, for every `from module import name [as
alias]` whose imported `name` is in the rename map, rewrites the node's
source line: with an alias, `re.sub(rf"\b{old}\s+as\s+{alias}\b", f"{new}
as {alias}", line)`; without, `re.sub(rf"\b{old}\b", new, line)`.  The
parsed nodes are taken as input data (module, `(name, asname)` pairs,
1-based line number), and the content is handled as its list of lines;
only the addressed lines are touched. -/

structure ImportFromM where
  module : Option Str
  names : List (Str × Option Str)
  lineno : Nat
deriving DecidableEq

/-- Python's `\s` (ASCII range). -/
def isSpc (c : Char) : Bool :=
  c = ' ' ∨ c = '\t' ∨ c = '\n' ∨ c = '\r' ∨ c = Char.ofNat 11 ∨ c = Char.ofNat 12

/-- Match `{old}\s+as\s+{asname}\b` at the start of `s`, returning the
matched length (the leading `\b` is the caller's business). -/
def tryAsLen (old asname : Str) (s : Str) : Option Nat :=
  if ¬ (old = []) ∧ old.isPrefixOf s then
    let r1 := s.drop old.length
    let sp1 := r1.takeWhile isSpc
    if sp1 = [] then none
    else
      let r2 := r1.drop sp1.length
      if ("as").data.isPrefixOf r2 then
        let r3 := r2.drop 2
        let sp2 := r3.takeWhile isSpc
        if sp2 = [] then none
        else
          let r4 := r3.drop sp2.length
          if asname.isPrefixOf r4 then
            match r4.drop asname.length with
            | [] => some (old.length + sp1.length + 2 + sp2.length + asname.length)
            | c :: _ =>
              if isWordChar c then none
              else some (old.length + sp1.length + 2 + sp2.length + asname.length)
          else none
      else none
  else none

/-- Left-to-right non-overlapping `re.sub(rf"\b{old}\s+as\s+{asname}\b",
f"{new} as {asname}", ·)` scanner; `skip` counts characters still to be
consumed as part of an emitted match. -/
def subAsGo (old asname new : Str) (prev : Option Char) (skip : Nat) : Str → Str
  | [] => []
  | c :: t =>
    match skip with
    | n + 1 => subAsGo old asname new (some c) n t
    | 0 =>
      let bdy := match prev with
        | none => true
        | some p => !(isWordChar p)
      match (if bdy then tryAsLen old asname (c :: t) else none) with
      | some len =>
        (new ++ (" as ").data ++ asname) ++ subAsGo old asname new (some c) (len - 1) t
      | none => c :: subAsGo old asname new (some c) 0 t

def subAsWord (old asname new : Str) (s : Str) : Str := subAsGo old asname new none 0 s

/-- Rewrite of one `ast.ImportFrom` node (lines 234–260). -/
def updateImportFromNode (ts : List (Str × Str)) (lines : List Str)
    (nd : ImportFromM) : List Str :=
  if nd.module.isSome then
    nd.names.foldl (fun lns nma =>
      match alistGet ts nma.1 with
      | none => lns
      | some newName =>
        let idx := nd.lineno - 1
        if idx < lns.length then
          let oldLine := lns.getD idx []
          let newLine := match nma.2 with
            | some a => subAsWord nma.1 a newName oldLine
            | none => subWord nma.1 newName oldLine
          if ¬ (newLine = oldLine) then lns.set idx newLine else lns
        else lns) lines
  else lines

def updateImports (ts : List (Str × Str)) (nodes : List ImportFromM)
    (lines : List Str) : List Str :=
  nodes.foldl (updateImportFromNode ts) lines

def importOldLineC5 : Str := ("from mod import Foo as F").data

def importNewLineC5 : Str := ("from mod import Thing as F").data

def ndC5 (k : Nat) : ImportFromM :=
  ⟨some (("mod").data), [((("Foo").data), some (("F").data))], k + 1⟩

def tsC5 : List (Str × Str) := [((("Foo").data), (("Thing").data))]

def linesC5w : List Str :=
  [("x = F").data, importOldLineC5, ("y = F(2)").data]

/-! ## C7 — `GlobalSymbolTracker.analyze_project`
(src/core/global_symbol_tracker.py 72–105, 125–133, 153–161, 198–206)

Each project file is input data: its path, whether it parses, whether
analysing it raises some *other* unexpected exception, and the records the
three extraction passes would produce from it.  `_analyze_file_definitions`,
`_analyze_file_imports` and `_analyze_file_usages` each re-read and
re-parse the file and *silently* `return` on `SyntaxError` (also
`FileNotFoundError` / `UnicodeDecodeError`); the `except` branches of
`analyze_project`'s two loops, which print the warning, only fire for
exceptions the helpers let through.  The index keeps the appended records
in insertion order (the defaultdict-of-lists structure carries the same
information). -/

structure FileSpecM where
  path : Str
  parses : Bool
  otherError : Bool
  elements : List CodeElementM
  importRecs : List ImportStatementM
  usageRecs : List SymbolUsageM
deriving DecidableEq

structure SymbolIndexM where
  defs : List SymbolDefinitionM
  usages : List SymbolUsageM
  imps : List ImportStatementM
  warnings : List Str
deriving DecidableEq

/-- Lines 142–151: a `SymbolDefinition` from a `CodeElement`. -/
def mkSymbolDef (path : Str) (e : CodeElementM) : SymbolDefinitionM :=
  ⟨e.name, e.element_type, path, e.line_number, e.context, e⟩

/-- `_analyze_file_definitions` (125–151): silent `return` unless the file
parses. -/
def analyzeFileDefs (st : SymbolIndexM) (f : FileSpecM) : SymbolIndexM :=
  if f.parses then { st with defs := st.defs ++ f.elements.map (mkSymbolDef f.path) }
  else st

/-- `_analyze_file_imports` (153–196): silent `return` unless the file
parses. -/
def analyzeFileImports (st : SymbolIndexM) (f : FileSpecM) : SymbolIndexM :=
  if f.parses then { st with imps := st.imps ++ f.importRecs }
  else st

/-- `_analyze_file_usages` (198–281): silent `return` unless the file
parses. -/
def analyzeFileUsages (st : SymbolIndexM) (f : FileSpecM) : SymbolIndexM :=
  if f.parses then { st with usages := st.usages ++ f.usageRecs }
  else st

def warnMsg (p : Str) : Str := ("Warning: Could not analyze ").data ++ p

def usageWarnMsg (p : Str) : Str :=
  ("Warning: Could not analyze usages in ").data ++ p

/-- Second-pass loop body (88–94). -/
def analyzeStep2 (st : SymbolIndexM) (f : FileSpecM) : SymbolIndexM :=
  if f.otherError then { st with warnings := st.warnings ++ [warnMsg f.path] }
  else analyzeFileImports (analyzeFileDefs st f) f

/-- Third-pass loop body (97–102). -/
def analyzeStep3 (st : SymbolIndexM) (f : FileSpecM) : SymbolIndexM :=
  if f.otherError then { st with warnings := st.warnings ++ [usageWarnMsg f.path] }
  else analyzeFileUsages st f

/-- `analyze_project` (72–105): definition/import pass, then usage pass. -/
def analyzeProject (files : List FileSpecM) : SymbolIndexM :=
  files.foldl analyzeStep3 (files.foldl analyzeStep2 ⟨[], [], [], []⟩)

def goodC7 : FileSpecM :=
  ⟨("good.py").data, true, false,
   [⟨("Alpha").data, ("class").data, 1, ("class Alpha").data⟩],
   [⟨("good.py").data, 2, ("import").data, ("os").data, [("os").data], []⟩],
   [⟨("Alpha").data, ("direct").data, ("good.py").data, 5, ("direct_usage").data, none⟩]⟩

def badC7 : FileSpecM :=
  ⟨("bad.py").data, false, false,
   [⟨("Beta").data, ("class").data, 1, ("class Beta").data⟩],
   [⟨("bad.py").data, 2, ("import").data, ("os").data, [("os").data], []⟩],
   [⟨("Beta").data, ("direct").data, ("bad.py").data, 5, ("direct_usage").data, none⟩]⟩

theorem wordRun_append (s : Str) : (wordRun s).1 ++ (wordRun s).2 = s := by
  induction s with
  | nil => rfl
  | cons c t ih =>
    simp only [wordRun]
    by_cases h : isWordChar c
    · simp [h, ih]
    · simp [h]

theorem wordRun_fst_allWord (s : Str) : allWord (wordRun s).1 = true := by
  induction s with
  | nil => rfl
  | cons c t ih =>
    simp only [wordRun]
    by_cases h : isWordChar c
    · simp only [h, if_true]
      simp only [allWord, List.all_cons, h, Bool.true_and]
      exact ih
    · simp [h, allWord]

theorem wordRun_snd_head (s : Str) : wordOpt (wordRun s).2.head? = false := by
  induction s with
  | nil => rfl
  | cons c t ih =>
    simp only [wordRun]
    by_cases h : isWordChar c
    · simp only [h, if_true]; exact ih
    · simp [h, wordOpt]

theorem wordRun_snd_length_le (s : Str) : (wordRun s).2.length ≤ s.length := by
  induction s with
  | nil => simp [wordRun]
  | cons c t ih =>
    simp only [wordRun]
    by_cases h : isWordChar c
    · simp only [h, if_true]
      exact Nat.le_trans ih (Nat.le_succ _)
    · simp [h]

theorem wordRun_fst_cons (c : Char) (t : Str) (h : isWordChar c = true) :
    (wordRun (c :: t)).1 = c :: (wordRun t).1 ∧ (wordRun (c :: t)).2 = (wordRun t).2 := by
  simp [wordRun, h]

theorem wordRun_not_word (c : Char) (t : Str) (h : isWordChar c = false) :
    wordRun (c :: t) = ([], c :: t) := by
  simp [wordRun, h]

theorem wordRun_snd_length_lt (c : Char) (t : Str) (h : isWordChar c = true) :
    (wordRun (c :: t)).2.length < (c :: t).length := by
  rcases wordRun_fst_cons c t h with ⟨_, h2⟩
  rw [h2]
  exact Nat.lt_succ_of_le (wordRun_snd_length_le t)

theorem tokensGo_run (s : Str) : ∀ acc : Str,
    tokensGo acc s = flushTok (acc ++ (wordRun s).1) ++ tokensGo [] (wordRun s).2 := by
  induction s with
  | nil =>
    intro acc
    simp [tokensGo, wordRun, flushTok]
  | cons c t ih =>
    intro acc
    by_cases hw : isWordChar c
    · rcases wordRun_fst_cons c t hw with ⟨h1, h2⟩
      rw [h1, h2]
      simp only [tokensGo, hw, if_true]
      rw [ih (acc ++ [c])]
      simp
    · have hwf : isWordChar c = false := by simpa using hw
      rw [wordRun_not_word c t hwf]
      simp only [tokensGo, hwf, Bool.false_eq_true, if_false, flushTok]
      simp [flushTok]

theorem tokenSubstGo_run (f : Str → Str) (s : Str) : ∀ acc : Str,
    tokenSubstGo f acc s =
      flushSub f (acc ++ (wordRun s).1) ++ tokenSubstGo f [] (wordRun s).2 := by
  induction s with
  | nil =>
    intro acc
    simp [tokenSubstGo, wordRun, flushSub]
  | cons c t ih =>
    intro acc
    by_cases hw : isWordChar c
    · rcases wordRun_fst_cons c t hw with ⟨h1, h2⟩
      rw [h1, h2]
      simp only [tokenSubstGo, hw, if_true]
      rw [ih (acc ++ [c])]
      simp
    · have hwf : isWordChar c = false := by simpa using hw
      rw [wordRun_not_word c t hwf]
      simp only [tokenSubstGo, hwf, Bool.false_eq_true, if_false, flushSub]
      simp [flushSub]

theorem wordRun_of_head_not_word (s : Str) (h : wordOpt s.head? = false) :
    wordRun s = ([], s) := by
  cases s with
  | nil => rfl
  | cons c t =>
    simp only [List.head?, wordOpt] at h
    simp [wordRun, h]

theorem tokens_nil : tokens ([] : Str) = [] := by
  simp [tokens, tokensGo, flushTok]

theorem tokens_cons_not_word (c : Char) (t : Str) (h : isWordChar c = false) :
    tokens (c :: t) = tokens t := by
  simp [tokens, tokensGo, h, flushTok]

theorem tokens_cons_word (c : Char) (t : Str) (h : isWordChar c = true) :
    tokens (c :: t) = (wordRun (c :: t)).1 :: tokens (wordRun (c :: t)).2 := by
  rcases wordRun_fst_cons c t h with ⟨h1, h2⟩
  rw [h1, h2]
  show tokensGo [] (c :: t) = _
  simp only [tokensGo, h, if_true, List.nil_append]
  rw [tokensGo_run t [c]]
  have : flushTok ([c] ++ (wordRun t).1) = [c :: (wordRun t).1] := by
    simp [flushTok]
  rw [this]
  rfl

theorem tokenSubst_nil (f : Str → Str) : tokenSubst f [] = [] := by
  simp [tokenSubst, tokenSubstGo, flushSub]

theorem tokenSubst_cons_not_word (f : Str → Str) (c : Char) (t : Str)
    (h : isWordChar c = false) : tokenSubst f (c :: t) = c :: tokenSubst f t := by
  simp [tokenSubst, tokenSubstGo, h, flushSub]

theorem tokenSubst_cons_word (f : Str → Str) (c : Char) (t : Str)
    (h : isWordChar c = true) :
    tokenSubst f (c :: t) = f (wordRun (c :: t)).1 ++ tokenSubst f (wordRun (c :: t)).2 := by
  rcases wordRun_fst_cons c t h with ⟨h1, h2⟩
  rw [h1, h2]
  show tokenSubstGo f [] (c :: t) = _
  simp only [tokenSubstGo, h, if_true, List.nil_append]
  rw [tokenSubstGo_run f t [c]]
  have : flushSub f ([c] ++ (wordRun t).1) = f (c :: (wordRun t).1) := by
    simp [flushSub]
  rw [this]
  rfl

/-- `w` is an all-word prefix of `s`, so it is a prefix of `s`'s leading word run. -/
theorem allWord_prefix_of_run (w : Str) (hw : allWord w = true) :
    ∀ s : Str, w <+: s → w <+: (wordRun s).1 := by
  induction w with
  | nil => intro s _; exact List.nil_prefix
  | cons a w' ih =>
    intro s hpre
    rcases hpre with ⟨u, hu⟩
    cases s with
    | nil => simp at hu
    | cons c t =>
      have hac : a = c := by
        have := congrArg List.head? hu
        simpa using this
      have haw : isWordChar a = true := by
        simp only [allWord, List.all_cons, Bool.and_eq_true] at hw
        exact hw.1
      have hw' : allWord w' = true := by
        simp only [allWord, List.all_cons, Bool.and_eq_true] at hw
        exact hw.2
      subst hac
      have ht : w' ++ u = t := by
        simpa using hu
      rcases wordRun_fst_cons a t haw with ⟨h1, _⟩
      rw [h1]
      exact List.cons_prefix_cons.mpr ⟨rfl, ih hw' t ⟨u, ht⟩⟩

/-- If an all-word, nonempty `w` is a prefix of `s` and the character of `s`
just after `w` is not a word character, then `w` is exactly the leading word
run of `s`.  (No word boundary can fall strictly inside an identifier.) -/
theorem run_eq_of_prefix_boundary (w s : Str) (hw : allWord w = true)
    (hpre : w <+: s) (htr : wordOpt (s.drop w.length).head? = false) :
    (wordRun s).1 = w := by
  have hrun : w <+: (wordRun s).1 := allWord_prefix_of_run w hw s hpre
  by_contra hne
  -- then w is a strict prefix of the run; the char after w inside the run is a word char
  have hlt : w.length < (wordRun s).1.length := by
    rcases hrun with ⟨u, hu⟩
    rcases List.eq_nil_or_concat u with hu0 | ⟨u', d, hd⟩
    · exfalso
      apply hne
      rw [← hu, hu0, List.append_nil]
    · subst hd
      rw [← hu]
      simp [List.length_append]
  -- s = run ++ rest
  have hs : s = (wordRun s).1 ++ (wordRun s).2 := (wordRun_append s).symm
  have hdrop : s.drop w.length = ((wordRun s).1.drop w.length) ++ (wordRun s).2 := by
    conv_lhs => rw [hs]
    exact List.drop_append_of_le_length (Nat.le_of_lt hlt)
  have hne2 : (wordRun s).1.drop w.length ≠ [] := by
    intro h0
    have := List.length_drop w.length (wordRun s).1
    rw [h0] at this
    simp at this
    omega
  rcases List.exists_cons_of_ne_nil hne2 with ⟨d, u', hdu⟩
  have hdmem : d ∈ (wordRun s).1 := by
    have : d ∈ (wordRun s).1.drop w.length := by rw [hdu]; exact List.mem_cons_self d u'
    exact List.mem_of_mem_drop this
  have hdw : isWordChar d = true := by
    have := wordRun_fst_allWord s
    simp only [allWord, List.all_eq_true] at this
    exact this d hdmem
  rw [hdrop, hdu] at htr
  simp [wordOpt, hdw] at htr

theorem lastOpt_some (w : Str) (c : Char) : lastOpt w (some c) = some (w.getLastD c) := by
  cases w with
  | nil => rfl
  | cons d t =>
    show some (t.getLastD d) = some ((d :: t).getLastD c)
    rw [List.getLastD_cons c d t]

theorem subWordGo_skip (o : Char) (os new : Str) :
    ∀ (w : Str) (prev : Option Char) (u : Str),
      subWordGo o os new prev w.length (w ++ u) =
        subWordGo o os new (lastOpt w prev) 0 u := by
  intro w
  induction w with
  | nil => intro prev u; rfl
  | cons c w' ih =>
    intro prev u
    show subWordGo o os new (some c) w'.length (w' ++ u) = _
    rw [ih (some c) u]
    rw [lastOpt_some]
    rfl

theorem subWordAux_nil (o : Char) (os new : Str) (prev : Option Char) :
    subWordAux o os new prev [] = [] := rfl

theorem subDotGo_skip (o : Char) (os new : Str) :
    ∀ (w u : Str), subDotGo o os new w.length (w ++ u) = subDotGo o os new 0 u := by
  intro w
  induction w with
  | nil => intro u; rfl
  | cons c w' ih =>
    intro u
    show subDotGo o os new w'.length (w' ++ u) = _
    exact ih u

theorem subDotWordAux_nil (o : Char) (os new : Str) :
    subDotWordAux o os new [] = [] := rfl

theorem subWordAux_cons (o : Char) (os new : Str) (prev : Option Char) (c : Char) (t : Str) :
    subWordAux o os new prev (c :: t) =
      if (o :: os).isPrefixOf (c :: t)
          && (wordOpt prev != isWordChar c)
          && (isWordChar (os.getLastD o) != wordOpt ((c :: t).drop (os.length + 1)).head?)
      then new ++ subWordAux o os new (some (os.getLastD o)) ((c :: t).drop (os.length + 1))
      else c :: subWordAux o os new (some c) t := by
  show subWordGo o os new prev 0 (c :: t) = _
  rw [subWordGo]
  by_cases hc : ((o :: os).isPrefixOf (c :: t)
      && (wordOpt prev != isWordChar c)
      && (isWordChar (os.getLastD o) != wordOpt ((c :: t).drop (os.length + 1)).head?)) = true
  · rw [if_pos hc, if_pos hc]
    congr 1
    -- after the match, skipping `os` subject characters lands right after the
    -- whole pattern, with `prev` equal to the pattern's last character
    have hpre : (o :: os).isPrefixOf (c :: t) = true := by
      simp only [Bool.and_eq_true] at hc
      exact hc.1.1
    rcases List.isPrefixOf_iff_prefix.mp hpre with ⟨u, hu⟩
    have hco : o = c := by
      have := congrArg List.head? hu
      simpa using this
    have htu : os ++ u = t := by
      have hu' : o :: (os ++ u) = c :: t := by rw [← List.cons_append]; exact hu
      injection hu' with h1 h2
    have hdrop : t.drop os.length = u := by
      rw [← htu]
      exact List.drop_left os u
    have hdrop2 : (c :: t).drop (os.length + 1) = u := by
      rw [List.drop_succ_cons, hdrop]
    show subWordGo o os new (some c) os.length t
        = subWordGo o os new (some (os.getLastD o)) 0 ((c :: t).drop (os.length + 1))
    calc subWordGo o os new (some c) os.length t
        = subWordGo o os new (some c) os.length (os ++ u) := by rw [htu]
      _ = subWordGo o os new (lastOpt os (some c)) 0 u := subWordGo_skip o os new os (some c) u
      _ = subWordGo o os new (some (os.getLastD o)) 0 u := by
            rw [lastOpt_some]
            cases os with
            | nil => rw [hco]
            | cons d t2 => rw [List.getLastD_cons c d t2, List.getLastD_cons o d t2]
      _ = subWordGo o os new (some (os.getLastD o)) 0 ((c :: t).drop (os.length + 1)) := by
            rw [hdrop2]
  · rw [if_neg hc, if_neg hc]
    rfl

/-- The scanner for `\b old \b` performs exactly the per-token substitution
`old ↦ new` on the maximal word tokens of the subject, for an all-word
pattern.  The second conjunct handles scan states in the middle of a word
run (the previous subject character is a word character): no match can
start there, so the rest of the run is copied verbatim. -/
theorem subWordAux_spec (o : Char) (os new : Str) (hAll : allWord (o :: os) = true) :
    ∀ n s prev, s.length ≤ n →
      (wordOpt prev = false →
        subWordAux o os new prev s = tokenSubst (fun r => if r = o :: os then new else r) s)
      ∧ (wordOpt prev = true →
        subWordAux o os new prev s =
          (wordRun s).1 ++ tokenSubst (fun r => if r = o :: os then new else r) (wordRun s).2) := by
  have ho : isWordChar o = true := by
    simp only [allWord, List.all_cons, Bool.and_eq_true] at hAll
    exact hAll.1
  have hlast : isWordChar (os.getLastD o) = true := by
    have hmem := List.getLastD_mem_cons os o
    have h2 := hAll
    simp only [allWord, List.all_eq_true] at h2
    exact h2 _ hmem
  intro n
  induction n with
  | zero =>
    intro s prev hs
    have hnil : s = [] := List.length_eq_zero.mp (Nat.le_zero.mp hs)
    subst hnil
    constructor
    · intro _; rw [subWordAux_nil, tokenSubst_nil]
    · intro _; rw [subWordAux_nil]; simp [wordRun, tokenSubst_nil]
  | succ n ih =>
    intro s prev hs
    cases s with
    | nil =>
      constructor
      · intro _; rw [subWordAux_nil, tokenSubst_nil]
      · intro _; rw [subWordAux_nil]; simp [wordRun, tokenSubst_nil]
    | cons c t =>
      have htlen : t.length ≤ n := by
        simpa using Nat.lt_succ_iff.mp (Nat.lt_of_lt_of_le (by simp) hs)
      by_cases hw : isWordChar c
      · -- head is a word character
        rcases wordRun_fst_cons c t hw with ⟨hrun1, hrun2⟩
        -- copying the head and continuing inside the run:
        have hcopy : c :: subWordAux o os new (some c) t =
            (wordRun (c :: t)).1 ++
              tokenSubst (fun r => if r = o :: os then new else r) (wordRun (c :: t)).2 := by
          have := ((ih t (some c) htlen).2 (by simpa [wordOpt] using hw))
          rw [this, hrun1, hrun2]
          simp
        constructor
        · -- part 1 : prev is not a word character; a match may start here
          intro hp
          by_cases hreq : (wordRun (c :: t)).1 = o :: os
          · -- the leading word run is exactly the pattern: the scanner matches
            have hsplit : c :: t = (o :: os) ++ (wordRun (c :: t)).2 := by
              conv_lhs => rw [← wordRun_append (c :: t)]
              rw [hreq]
            have hpre : (o :: os).isPrefixOf (c :: t) = true := by
              rw [List.isPrefixOf_iff_prefix]
              exact ⟨(wordRun (c :: t)).2, hsplit.symm⟩
            have hdropEq : (c :: t).drop (os.length + 1) = (wordRun (c :: t)).2 := by
              conv_lhs => rw [hsplit]
              have : os.length + 1 = (o :: os).length := by simp
              rw [this, List.drop_left]
            have htrail : wordOpt ((c :: t).drop (os.length + 1)).head? = false := by
              rw [hdropEq]
              exact wordRun_snd_head (c :: t)
            have hcond : ((o :: os).isPrefixOf (c :: t)
                && (wordOpt prev != isWordChar c)
                && (isWordChar (os.getLastD o) != wordOpt ((c :: t).drop (os.length + 1)).head?))
                = true := by
              rw [hpre, hp, hw, hlast, htrail]
              rfl
            rw [subWordAux_cons, hcond, if_pos rfl]
            have hrestlen : ((c :: t).drop (os.length + 1)).length ≤ n := by
              rw [hdropEq]
              exact Nat.lt_succ_iff.mp (Nat.lt_of_lt_of_le (wordRun_snd_length_lt c t hw) hs)
            have hrec := (ih ((c :: t).drop (os.length + 1)) (some (os.getLastD o)) hrestlen).2
              (by simpa [wordOpt] using hlast)
            rw [hrec]
            have hrw : wordRun ((c :: t).drop (os.length + 1)) = ([], (c :: t).drop (os.length + 1)) :=
              wordRun_of_head_not_word _ htrail
            rw [hrw]
            simp only [List.nil_append]
            rw [tokenSubst_cons_word _ c t hw, hreq, if_pos rfl, hdropEq]
          · -- run ≠ pattern: no match can start here
            have hcond : ((o :: os).isPrefixOf (c :: t)
                && (wordOpt prev != isWordChar c)
                && (isWordChar (os.getLastD o) != wordOpt ((c :: t).drop (os.length + 1)).head?))
                = false := by
              by_cases hpre : (o :: os).isPrefixOf (c :: t) = true
              · by_cases htr : wordOpt ((c :: t).drop (os.length + 1)).head? = false
                · exfalso
                  apply hreq
                  apply run_eq_of_prefix_boundary (o :: os) (c :: t) hAll
                  · exact List.isPrefixOf_iff_prefix.mp hpre
                  · simpa using htr
                · rw [hpre, hlast]
                  simp only [Bool.not_eq_false] at htr
                  rw [htr]
                  simp
              · simp only [Bool.not_eq_true] at hpre
                rw [hpre]
                rfl
            rw [subWordAux_cons, hcond, if_neg (by simp)]
            rw [hcopy]
            rw [tokenSubst_cons_word _ c t hw, if_neg hreq]
        · -- part 2 : prev is a word character; the head char is copied
          intro hp
          have hcond : ((o :: os).isPrefixOf (c :: t)
              && (wordOpt prev != isWordChar c)
              && (isWordChar (os.getLastD o) != wordOpt ((c :: t).drop (os.length + 1)).head?))
              = false := by
            rw [hp, hw]
            simp
          rw [subWordAux_cons, hcond, if_neg (by simp)]
          exact hcopy
      · -- head is not a word character: the pattern (whose head is a word
        -- character) cannot match here
        have hcond : ((o :: os).isPrefixOf (c :: t)
            && (wordOpt prev != isWordChar c)
            && (isWordChar (os.getLastD o) != wordOpt ((c :: t).drop (os.length + 1)).head?))
            = false := by
          have hpre : (o :: os).isPrefixOf (c :: t) = false := by
            by_contra hx
            simp only [Bool.not_eq_false] at hx
            have := List.isPrefixOf_iff_prefix.mp hx
            have hoc : o = c := by
              rcases this with ⟨u, hu⟩
              have := congrArg List.head? hu
              simpa using this
            rw [hoc] at ho
            rw [ho] at hw
            exact hw rfl
          rw [hpre]
          rfl
        rw [subWordAux_cons, hcond, if_neg (by simp)]
        have hrec := (ih t (some c) htlen).1 (by simpa [wordOpt] using hw)
        have hwf : isWordChar c = false := by simpa using hw
        constructor
        · intro _
          rw [hrec, tokenSubst_cons_not_word _ c t hwf]
        · intro _
          rw [wordRun_not_word c t hwf]
          simp only [List.nil_append]
          rw [hrec, tokenSubst_cons_not_word _ c t hwf]

/-- `re.sub(rf'\b{old}\b', new, s)` = per-token substitution `old ↦ new`,
for a nonempty all-word `old`. -/
theorem subWord_eq_tokenSubst (old new s : Str) (hne : old ≠ [])
    (hAll : allWord old = true) :
    subWord old new s = tokenSubst (fun r => if r = old then new else r) s := by
  match old, hne with
  | o :: os, _ =>
    rw [subWord]
    exact (subWordAux_spec o os new hAll s.length s none le_rfl).1 rfl

theorem tokens_mem_spec : ∀ n (s : Str), s.length ≤ n →
    ∀ r ∈ tokens s, r ≠ [] ∧ allWord r = true := by
  intro n
  induction n with
  | zero =>
    intro s hs r hr
    have : s = [] := List.length_eq_zero.mp (Nat.le_zero.mp hs)
    subst this
    rw [tokens_nil] at hr
    simp at hr
  | succ n ih =>
    intro s hs r hr
    cases s with
    | nil =>
      rw [tokens_nil] at hr
      simp at hr
    | cons c t =>
      by_cases hw : isWordChar c
      · rw [tokens_cons_word c t hw] at hr
        rcases List.mem_cons.mp hr with h | h
        · subst h
          rcases wordRun_fst_cons c t hw with ⟨h1, _⟩
          constructor
          · rw [h1]; simp
          · exact wordRun_fst_allWord (c :: t)
        · exact ih (wordRun (c :: t)).2
            (Nat.lt_succ_iff.mp (Nat.lt_of_lt_of_le (wordRun_snd_length_lt c t hw) hs)) r h
      · rw [tokens_cons_not_word c t (by simpa using hw)] at hr
        exact ih t (by simpa using Nat.lt_succ_iff.mp (Nat.lt_of_lt_of_le (by simp) hs)) r hr

theorem tokens_allword (s : Str) : ∀ r ∈ tokens s, r ≠ [] ∧ allWord r = true :=
  tokens_mem_spec s.length s le_rfl

theorem tokenSubst_id : ∀ n (s : Str), s.length ≤ n → tokenSubst (fun r => r) s = s := by
  intro n
  induction n with
  | zero =>
    intro s hs
    have : s = [] := List.length_eq_zero.mp (Nat.le_zero.mp hs)
    subst this
    rw [tokenSubst_nil]
  | succ n ih =>
    intro s hs
    cases s with
    | nil => rw [tokenSubst_nil]
    | cons c t =>
      by_cases hw : isWordChar c
      · rw [tokenSubst_cons_word _ c t hw]
        rw [ih (wordRun (c :: t)).2
          (Nat.lt_succ_iff.mp (Nat.lt_of_lt_of_le (wordRun_snd_length_lt c t hw) hs))]
        exact wordRun_append (c :: t)
      · rw [tokenSubst_cons_not_word _ c t (by simpa using hw)]
        rw [ih t (by simpa using Nat.lt_succ_iff.mp (Nat.lt_of_lt_of_le (by simp) hs))]

theorem tokenSubst_congr_aux (f g : Str → Str) : ∀ n (s : Str), s.length ≤ n →
    (∀ r ∈ tokens s, f r = g r) → tokenSubst f s = tokenSubst g s := by
  intro n
  induction n with
  | zero =>
    intro s hs _
    have : s = [] := List.length_eq_zero.mp (Nat.le_zero.mp hs)
    subst this
    rw [tokenSubst_nil, tokenSubst_nil]
  | succ n ih =>
    intro s hs h
    cases s with
    | nil => rw [tokenSubst_nil, tokenSubst_nil]
    | cons c t =>
      by_cases hw : isWordChar c
      · rw [tokenSubst_cons_word _ c t hw, tokenSubst_cons_word _ c t hw]
        rw [tokens_cons_word c t hw] at h
        rw [h _ (List.mem_cons_self _ _)]
        rw [ih (wordRun (c :: t)).2
          (Nat.lt_succ_iff.mp (Nat.lt_of_lt_of_le (wordRun_snd_length_lt c t hw) hs))
          (fun r hr => h r (List.mem_cons_of_mem _ hr))]
      · have hwf : isWordChar c = false := by simpa using hw
        rw [tokenSubst_cons_not_word _ c t hwf, tokenSubst_cons_not_word _ c t hwf]
        rw [tokens_cons_not_word c t hwf] at h
        rw [ih t (by simpa using Nat.lt_succ_iff.mp (Nat.lt_of_lt_of_le (by simp) hs)) h]

theorem tokenSubst_congr (f g : Str → Str) (s : Str)
    (h : ∀ r ∈ tokens s, f r = g r) : tokenSubst f s = tokenSubst g s :=
  tokenSubst_congr_aux f g s.length s le_rfl h

theorem head_tokenSubst_not_word (f : Str → Str) (s : Str)
    (h : wordOpt s.head? = false) : wordOpt (tokenSubst f s).head? = false := by
  cases s with
  | nil => rw [tokenSubst_nil]; rfl
  | cons c t =>
    simp only [List.head?, wordOpt] at h
    rw [tokenSubst_cons_not_word _ c t h]
    simpa [wordOpt] using h

theorem wordRun_allWord_append (w u : Str) (hw : allWord w = true)
    (hu : wordOpt u.head? = false) : wordRun (w ++ u) = (w, u) := by
  induction w with
  | nil => simpa using wordRun_of_head_not_word u hu
  | cons a w' ih =>
    have ha : isWordChar a = true := by
      simp only [allWord, List.all_cons, Bool.and_eq_true] at hw
      exact hw.1
    have hw' : allWord w' = true := by
      simp only [allWord, List.all_cons, Bool.and_eq_true] at hw
      exact hw.2
    have hih := ih hw'
    rw [List.cons_append]
    rcases wordRun_fst_cons a (w' ++ u) ha with ⟨h1, h2⟩
    have e1 : (wordRun (a :: (w' ++ u))).1 = a :: w' := by rw [h1, hih]
    have e2 : (wordRun (a :: (w' ++ u))).2 = u := by rw [h2, hih]
    calc wordRun (a :: (w' ++ u))
        = ((wordRun (a :: (w' ++ u))).1, (wordRun (a :: (w' ++ u))).2) := rfl
      _ = (a :: w', u) := by rw [e1, e2]

theorem tokens_word_append (w u : Str) (hne : w ≠ []) (hw : allWord w = true)
    (hu : wordOpt u.head? = false) : tokens (w ++ u) = w :: tokens u := by
  match w, hne with
  | a :: w', _ =>
    have ha : isWordChar a = true := by
      simp only [allWord, List.all_cons, Bool.and_eq_true] at hw
      exact hw.1
    rw [List.cons_append, tokens_cons_word a (w' ++ u) ha]
    have := wordRun_allWord_append (a :: w') u hw hu
    rw [List.cons_append] at this
    rw [this]

theorem tokenSubst_word_append (f : Str → Str) (w u : Str) (hne : w ≠ [])
    (hw : allWord w = true) (hu : wordOpt u.head? = false) :
    tokenSubst f (w ++ u) = f w ++ tokenSubst f u := by
  match w, hne with
  | a :: w', _ =>
    have ha : isWordChar a = true := by
      simp only [allWord, List.all_cons, Bool.and_eq_true] at hw
      exact hw.1
    rw [List.cons_append, tokenSubst_cons_word f a (w' ++ u) ha]
    have := wordRun_allWord_append (a :: w') u hw hu
    rw [List.cons_append] at this
    rw [this]

theorem tokens_tokenSubst_aux (f : Str → Str)
    (hf : ∀ r, r ≠ [] → allWord r = true → f r ≠ [] ∧ allWord (f r) = true) :
    ∀ n (s : Str), s.length ≤ n → tokens (tokenSubst f s) = (tokens s).map f := by
  intro n
  induction n with
  | zero =>
    intro s hs
    have : s = [] := List.length_eq_zero.mp (Nat.le_zero.mp hs)
    subst this
    rw [tokenSubst_nil, tokens_nil]
    simp
  | succ n ih =>
    intro s hs
    cases s with
    | nil => rw [tokenSubst_nil, tokens_nil]; simp
    | cons c t =>
      by_cases hw : isWordChar c
      · have hr := wordRun_fst_cons c t hw
        have hrne : (wordRun (c :: t)).1 ≠ [] := by rw [hr.1]; simp
        have hrw : allWord (wordRun (c :: t)).1 = true := wordRun_fst_allWord (c :: t)
        have hfr := hf _ hrne hrw
        have hresthead : wordOpt ((wordRun (c :: t)).2).head? = false := wordRun_snd_head (c :: t)
        have hreclen : (wordRun (c :: t)).2.length ≤ n :=
          Nat.lt_succ_iff.mp (Nat.lt_of_lt_of_le (wordRun_snd_length_lt c t hw) hs)
        rw [tokenSubst_cons_word _ c t hw]
        rw [tokens_word_append _ _ hfr.1 hfr.2 (head_tokenSubst_not_word f _ hresthead)]
        rw [ih _ hreclen]
        rw [tokens_cons_word c t hw]
        rfl
      · have hwf : isWordChar c = false := by simpa using hw
        rw [tokenSubst_cons_not_word _ c t hwf, tokens_cons_not_word c _ hwf,
          tokens_cons_not_word c t hwf]
        exact ih t (by simpa using Nat.lt_succ_iff.mp (Nat.lt_of_lt_of_le (by simp) hs))

theorem tokens_tokenSubst (f : Str → Str) (s : Str)
    (hf : ∀ r, r ≠ [] → allWord r = true → f r ≠ [] ∧ allWord (f r) = true) :
    tokens (tokenSubst f s) = (tokens s).map f :=
  tokens_tokenSubst_aux f hf s.length s le_rfl

theorem tokenSubst_comp_aux (f g : Str → Str)
    (hf : ∀ r, r ≠ [] → allWord r = true → f r ≠ [] ∧ allWord (f r) = true) :
    ∀ n (s : Str), s.length ≤ n →
      tokenSubst g (tokenSubst f s) = tokenSubst (fun r => g (f r)) s := by
  intro n
  induction n with
  | zero =>
    intro s hs
    have : s = [] := List.length_eq_zero.mp (Nat.le_zero.mp hs)
    subst this
    rw [tokenSubst_nil, tokenSubst_nil, tokenSubst_nil]
  | succ n ih =>
    intro s hs
    cases s with
    | nil => rw [tokenSubst_nil, tokenSubst_nil, tokenSubst_nil]
    | cons c t =>
      by_cases hw : isWordChar c
      · have hr := wordRun_fst_cons c t hw
        have hrne : (wordRun (c :: t)).1 ≠ [] := by rw [hr.1]; simp
        have hrw : allWord (wordRun (c :: t)).1 = true := wordRun_fst_allWord (c :: t)
        have hfr := hf _ hrne hrw
        have hresthead : wordOpt ((wordRun (c :: t)).2).head? = false := wordRun_snd_head (c :: t)
        have hreclen : (wordRun (c :: t)).2.length ≤ n :=
          Nat.lt_succ_iff.mp (Nat.lt_of_lt_of_le (wordRun_snd_length_lt c t hw) hs)
        rw [tokenSubst_cons_word _ c t hw]
        rw [tokenSubst_word_append g _ _ hfr.1 hfr.2 (head_tokenSubst_not_word f _ hresthead)]
        rw [ih _ hreclen]
        rw [tokenSubst_cons_word _ c t hw]
      · have hwf : isWordChar c = false := by simpa using hw
        rw [tokenSubst_cons_not_word _ c t hwf, tokenSubst_cons_not_word _ c _ hwf,
          tokenSubst_cons_not_word _ c t hwf]
        rw [ih t (by simpa using Nat.lt_succ_iff.mp (Nat.lt_of_lt_of_le (by simp) hs))]

theorem tokenSubst_comp (f g : Str → Str) (s : Str)
    (hf : ∀ r, r ≠ [] → allWord r = true → f r ≠ [] ∧ allWord (f r) = true) :
    tokenSubst g (tokenSubst f s) = tokenSubst (fun r => g (f r)) s :=
  tokenSubst_comp_aux f g hf s.length s le_rfl

theorem subDotWordAux_cons (o : Char) (os new : Str) (c : Char) (t : Str) :
    subDotWordAux o os new (c :: t) =
      if (c = '.' : Bool) && (o :: os).isPrefixOf t
          && (isWordChar (os.getLastD o) != wordOpt ((t.drop (os.length + 1)).head?))
      then '.' :: (new ++ subDotWordAux o os new (t.drop (os.length + 1)))
      else c :: subDotWordAux o os new t := by
  show subDotGo o os new 0 (c :: t) = _
  rw [subDotGo]
  by_cases hc : ((c = '.' : Bool) && (o :: os).isPrefixOf t
      && (isWordChar (os.getLastD o) != wordOpt ((t.drop (os.length + 1)).head?))) = true
  · rw [if_pos hc, if_pos hc]
    have hpre : (o :: os).isPrefixOf t = true := by
      simp only [Bool.and_eq_true] at hc
      exact hc.1.2
    rcases List.isPrefixOf_iff_prefix.mp hpre with ⟨u, hu⟩
    have hdrop : t.drop (os.length + 1) = u := by
      have : (o :: os).length = os.length + 1 := by simp
      rw [← hu, ← this]
      exact List.drop_left (o :: os) u
    have hskip : subDotGo o os new (os.length + 1) t = subDotGo o os new 0 u := by
      have hl : (o :: os).length = os.length + 1 := by simp
      rw [← hu, ← hl]
      exact subDotGo_skip o os new (o :: os) u
    rw [hskip, hdrop]
    rfl
  · rw [if_neg hc, if_neg hc]
    rfl

theorem isWordChar_dot : isWordChar '.' = false := by decide

/-- The dot-pattern scanner copies an all-word run verbatim (no match can
start at a word character, since the pattern begins with a literal dot). -/
theorem subDotWordAux_word_append (o : Char) (os new : Str) (w u : Str)
    (hw : allWord w = true) :
    subDotWordAux o os new (w ++ u) = w ++ subDotWordAux o os new u := by
  induction w with
  | nil => simp
  | cons a w' ih =>
    have ha : isWordChar a = true := by
      simp only [allWord, List.all_cons, Bool.and_eq_true] at hw
      exact hw.1
    have hw' : allWord w' = true := by
      simp only [allWord, List.all_cons, Bool.and_eq_true] at hw
      exact hw.2
    have hadot : (a = '.' : Bool) = false := by
      by_contra hx
      simp only [Bool.not_eq_false, decide_eq_true_eq] at hx
      rw [hx, isWordChar_dot] at ha
      exact Bool.false_ne_true ha
    rw [List.cons_append, subDotWordAux_cons]
    rw [hadot]
    simp only [Bool.false_and, if_neg (by simp : ¬(false = true))]
    rw [ih hw']
    simp

/-- If no maximal word token of `s` equals `old`, the secondary pattern
`\.{old}\b` finds nothing: `re.sub` returns `s` unchanged. -/
theorem subDotWordAux_noop (o : Char) (os new : Str) (hAll : allWord (o :: os) = true) :
    ∀ n (s : Str), s.length ≤ n → (∀ r ∈ tokens s, r ≠ o :: os) →
      subDotWordAux o os new s = s := by
  have hlast : isWordChar (os.getLastD o) = true := by
    have hmem := List.getLastD_mem_cons os o
    have h2 := hAll
    simp only [allWord, List.all_eq_true] at h2
    exact h2 _ hmem
  intro n
  induction n with
  | zero =>
    intro s hs _
    have : s = [] := List.length_eq_zero.mp (Nat.le_zero.mp hs)
    subst this
    rw [subDotWordAux_nil]
  | succ n ih =>
    intro s hs htok
    cases s with
    | nil => rw [subDotWordAux_nil]
    | cons c t =>
      by_cases hw : isWordChar c
      · -- split off the whole leading word run and continue after it
        have hsplit : (wordRun (c :: t)).1 ++ (wordRun (c :: t)).2 = c :: t :=
          wordRun_append (c :: t)
        have hreclen : (wordRun (c :: t)).2.length ≤ n :=
          Nat.lt_succ_iff.mp (Nat.lt_of_lt_of_le (wordRun_snd_length_lt c t hw) hs)
        have htok' : ∀ r ∈ tokens (wordRun (c :: t)).2, r ≠ o :: os := by
          intro r hr
          apply htok
          rw [tokens_cons_word c t hw]
          exact List.mem_cons_of_mem _ hr
        conv_lhs => rw [← hsplit]
        rw [subDotWordAux_word_append o os new _ _ (wordRun_fst_allWord (c :: t))]
        rw [ih _ hreclen htok']
        exact hsplit
      · have hwf : isWordChar c = false := by simpa using hw
        have htlen : t.length ≤ n := by
          simpa using Nat.lt_succ_iff.mp (Nat.lt_of_lt_of_le (by simp) hs)
        have htok' : ∀ r ∈ tokens t, r ≠ o :: os := by
          intro r hr
          apply htok
          rw [tokens_cons_not_word c t hwf]
          exact hr
        have hcond : ((c = '.' : Bool) && (o :: os).isPrefixOf t
            && (isWordChar (os.getLastD o) != wordOpt ((t.drop (os.length + 1)).head?)))
            = false := by
          by_cases hdot : (c = '.' : Bool) = true
          · -- a dot: a successful match would force the next token to be `old`
            by_cases hpre : (o :: os).isPrefixOf t = true
            · by_cases htr : wordOpt ((t.drop (os.length + 1)).head?) = false
              · exfalso
                have hrun : (wordRun t).1 = o :: os := by
                  apply run_eq_of_prefix_boundary (o :: os) t hAll
                  · exact List.isPrefixOf_iff_prefix.mp hpre
                  · simpa using htr
                cases t with
                | nil => simp [List.isPrefixOf] at hpre
                | cons d t' =>
                  have hdw : isWordChar d = true := by
                    have hpre' := List.isPrefixOf_iff_prefix.mp hpre
                    have hod : o = d := by
                      rcases hpre' with ⟨u, hu⟩
                      have := congrArg List.head? hu
                      simpa using this
                    rw [← hod]
                    simp only [allWord, List.all_cons, Bool.and_eq_true] at hAll
                    exact hAll.1
                  have : (wordRun (d :: t')).1 ∈ tokens (d :: t') := by
                    rw [tokens_cons_word d t' hdw]
                    exact List.mem_cons_self _ _
                  exact htok' _ this hrun
              · simp only [Bool.not_eq_false] at htr
                rw [hlast, htr]
                simp
            · simp only [Bool.not_eq_true] at hpre
              rw [hpre]
              simp
          · simp only [Bool.not_eq_true] at hdot
            rw [hdot]
            simp
        rw [subDotWordAux_cons, hcond, if_neg (by simp)]
        rw [ih t htlen htok']

theorem subDotWord_noop (old new s : Str) (hne : old ≠ []) (hAll : allWord old = true)
    (htok : ∀ r ∈ tokens s, r ≠ old) : subDotWord old new s = s := by
  match old, hne with
  | o :: os, _ =>
    rw [subDotWord]
    exact subDotWordAux_noop o os new hAll s.length s le_rfl htok

theorem insLenDesc_perm (p : Str × Str) (l : List (Str × Str)) :
    List.Perm (insLenDesc p l) (p :: l) := by
  induction l with
  | nil => rfl
  | cons q l ih =>
    rw [insLenDesc]
    by_cases h : p.1.length < q.1.length
    · rw [if_pos h]
      exact (ih.cons q).trans (List.Perm.swap p q l)
    · rw [if_neg h]

theorem sortLenDesc_perm (l : List (Str × Str)) : List.Perm (sortLenDesc l) l := by
  induction l with
  | nil => rfl
  | cons p l ih =>
    rw [sortLenDesc]
    exact (insLenDesc_perm p (sortLenDesc l)).trans (ih.cons p)

theorem applyPair_tokenSubst (s : Str) (p : Str × Str)
    (h1 : p.1 ≠ []) (hA : allWord p.1 = true)
    (h2 : p.2 ≠ []) (hB : allWord p.2 = true) (hnew : p.2 ≠ p.1) :
    applyPair s p = tokenSubst (fun r => if r = p.1 then p.2 else r) s := by
  rw [applyPair, subWord_eq_tokenSubst p.1 p.2 s h1 hA]
  apply subDotWord_noop p.1 p.2 _ h1 hA
  intro r hr
  rw [tokens_tokenSubst _ s (by
    intro x hx hall
    by_cases hxe : x = p.1
    · subst hxe; simp only [if_pos rfl]; exact ⟨h2, hB⟩
    · rw [if_neg hxe]; exact ⟨hx, hall⟩)] at hr
  rcases List.mem_map.mp hr with ⟨x, _, hxr⟩
  by_cases hxe : x = p.1
  · subst hxe
    rw [if_pos rfl] at hxr
    rw [← hxr]
    exact hnew
  · rw [if_neg hxe] at hxr
    rw [← hxr]
    exact hxe

theorem foldl_applyPair_tokenSubst (ps : List (Str × Str)) (hok : renamePairsOk ps) :
    ∀ s : Str, ps.foldl applyPair s = tokenSubst (foldRename ps) s := by
  induction ps with
  | nil =>
    intro s
    rw [List.foldl_nil]
    have : foldRename [] = fun r => r := by
      funext r
      rw [foldRename, List.foldl_nil]
    rw [this]
    exact (tokenSubst_id s.length s le_rfl).symm
  | cons p ps ih =>
    intro s
    have hp := hok p (List.mem_cons_self p ps)
    have hok' : renamePairsOk ps := by
      intro q hq
      have := hok q (List.mem_cons_of_mem p hq)
      exact ⟨this.1, this.2.1, this.2.2.1, this.2.2.2.1,
        fun q' hq' => this.2.2.2.2 q' (List.mem_cons_of_mem p hq')⟩
    have hnewp : p.2 ≠ p.1 := hp.2.2.2.2 p (List.mem_cons_self p ps)
    rw [List.foldl_cons, ih hok',
      applyPair_tokenSubst s p hp.1 hp.2.1 hp.2.2.1 hp.2.2.2.1 hnewp,
      tokenSubst_comp _ _ s (by
        intro x hx hall
        by_cases hxe : x = p.1
        · subst hxe; simp only [if_pos rfl]; exact ⟨hp.2.2.1, hp.2.2.2.1⟩
        · rw [if_neg hxe]; exact ⟨hx, hall⟩)]
    have : (fun r => foldRename ps (if r = p.1 then p.2 else r)) = foldRename (p :: ps) := by
      funext r
      rw [foldRename, foldRename, List.foldl_cons]
    rw [this]

theorem renameLookup_nil (r : Str) : renameLookup [] r = r := by
  rw [renameLookup]
  rfl

theorem renameLookup_cons_eq (p : Str × Str) (ps : List (Str × Str)) (r : Str)
    (h : p.1 = r) : renameLookup (p :: ps) r = p.2 := by
  rw [renameLookup, List.find?_cons_of_pos _ (by simp [h])]

theorem renameLookup_cons_ne (p : Str × Str) (ps : List (Str × Str)) (r : Str)
    (h : p.1 ≠ r) : renameLookup (p :: ps) r = renameLookup ps r := by
  rw [renameLookup, List.find?_cons_of_neg _ (by simp [h]), renameLookup]

theorem renameLookup_eq_of_mem (ts : List (Str × Str))
    (hkeys : (ts.map Prod.fst).Nodup) (o n : Str) (h : (o, n) ∈ ts) :
    renameLookup ts o = n := by
  induction ts with
  | nil => simp at h
  | cons p ts ih =>
    rcases List.mem_cons.mp h with he | hm
    · rw [renameLookup_cons_eq p ts o (by rw [← he])]
      rw [← he]
    · have hkeystail : (ts.map Prod.fst).Nodup := (List.nodup_cons.mp hkeys).2
      have hne : p.1 ≠ o := by
        intro hx
        have hmemk : o ∈ ts.map Prod.fst := List.mem_map.mpr ⟨(o, n), hm, rfl⟩
        have hkeys' : (p.1 :: ts.map Prod.fst).Nodup := by simpa using hkeys
        exact (List.nodup_cons.mp hkeys').1 (hx ▸ hmemk)
      rw [renameLookup_cons_ne p ts o hne]
      exact ih hkeystail hm

theorem renameLookup_eq_self_of_not_mem (ts : List (Str × Str)) (r : Str)
    (h : r ∉ ts.map Prod.fst) : renameLookup ts r = r := by
  induction ts with
  | nil => exact renameLookup_nil r
  | cons p ts ih =>
    have h1 : p.1 ≠ r := by
      intro hx
      exact h (List.mem_map.mpr ⟨p, List.mem_cons_self p ts, hx⟩)
    rw [renameLookup_cons_ne p ts r h1]
    exact ih (fun hx => by
      rcases List.mem_map.mp hx with ⟨q, hq, hq1⟩
      exact h (List.mem_map.mpr ⟨q, List.mem_cons_of_mem p hq, hq1⟩))

theorem renameLookup_perm (ps ts : List (Str × Str)) (hperm : List.Perm ps ts)
    (hkeys : (ts.map Prod.fst).Nodup) (r : Str) :
    renameLookup ps r = renameLookup ts r := by
  by_cases hmem : r ∈ ts.map Prod.fst
  · rcases List.mem_map.mp hmem with ⟨p, hp, hp1⟩
    have hp' : p ∈ ps := hperm.mem_iff.mpr hp
    have hkeys' : (ps.map Prod.fst).Nodup := ((hperm.map Prod.fst).nodup_iff).mpr hkeys
    have e1 := renameLookup_eq_of_mem ps hkeys' r p.2 (by rw [← hp1]; simpa using hp')
    have e2 := renameLookup_eq_of_mem ts hkeys r p.2 (by rw [← hp1]; simpa using hp)
    rw [e1, e2]
  · have hmem' : r ∉ ps.map Prod.fst := fun hx => hmem ((hperm.map Prod.fst).mem_iff.mp hx)
    rw [renameLookup_eq_self_of_not_mem ps r hmem', renameLookup_eq_self_of_not_mem ts r hmem]

theorem foldRename_fix (ps : List (Str × Str)) (w : Str)
    (h : ∀ q ∈ ps, w ≠ q.1) : foldRename ps w = w := by
  induction ps with
  | nil => rw [foldRename, List.foldl_nil]
  | cons q ps ih =>
    rw [foldRename, List.foldl_cons, if_neg (h q (List.mem_cons_self q ps))]
    exact ih (fun q' hq' => h q' (List.mem_cons_of_mem q hq'))

theorem foldRename_eq_renameLookup (ps : List (Str × Str))
    (hkeys : (ps.map Prod.fst).Nodup)
    (hfresh : ∀ p ∈ ps, ∀ q ∈ ps, p.2 ≠ q.1) (r : Str) :
    foldRename ps r = renameLookup ps r := by
  induction ps with
  | nil => rw [foldRename, List.foldl_nil, renameLookup_nil]
  | cons p ps ih =>
    by_cases hr : r = p.1
    · subst hr
      rw [foldRename, List.foldl_cons, if_pos rfl]
      have hfix : ps.foldl (fun w p => if w = p.1 then p.2 else w) p.2 = p.2 := by
        have := foldRename_fix ps p.2 (fun q hq =>
          hfresh p (List.mem_cons_self p ps) q (List.mem_cons_of_mem p hq))
        rw [foldRename] at this
        exact this
      rw [hfix, renameLookup_cons_eq p ps p.1 rfl]
    · rw [foldRename, List.foldl_cons, if_neg hr]
      have ihh := ih (List.nodup_cons.mp hkeys).2 (fun p' hp' q' hq' =>
        hfresh p' (List.mem_cons_of_mem p hp') q' (List.mem_cons_of_mem p hq'))
      rw [foldRename] at ihh
      rw [ihh, renameLookup_cons_ne p ps r (fun hx => hr hx.symm)]

/-- **C1** — counterexample to the claim as stated.  The claim quantifies
over *every* rename map with two old names in strict substring relation
and asserts each whole-identifier occurrence of the longer name ends up
either replaced by its own new name or intact.  The map
`{item_id ↦ item, item ↦ thing}` (old names `item ⊂ item_id`) violates
this on the file `"item_id"`: the pass (length-descending order) first
rewrites `item_id` to `item`, and the shorter entry then rewrites that to
`thing` — neither `item_id`'s own new name (`item`) nor the original. -/
theorem c1_counterexample :
    apply_transformations_preserve_formatting
        [(("item_id").data, ("item").data), (("item").data, ("thing").data)]
        (("item_id").data) = ("thing").data
    ∧ ("thing").data ≠ ("item").data
    ∧ ("thing").data ≠ ("item_id").data
    ∧ apply_transformations_preserve_formatting
        [(("item_id").data, ("item").data), (("item").data, ("thing").data)]
        (("item_id").data)
      ≠ tokenSubst
          (renameLookup [(("item_id").data, ("item").data), (("item").data, ("thing").data)])
          (("item_id").data) := by
  decide

/-- **C1** (amended).  For every rename map whose entries are nonempty
identifier strings with pairwise-distinct old names, and — the proviso the
counterexample forces — no entry's new name equal to any entry's old name,
containing two entries whose old names are in strict substring relation:
the text substitution pass rewrites the file exactly token-wise — every
maximal identifier occurrence equal to a key is replaced by that key's own
new name and every other character is left intact.  In particular every
whole-identifier occurrence of the longer name `long` becomes exactly
`nlong`, and is never corrupted by the shorter entry. -/
theorem c1_theorem (ts : List (Str × Str)) (s : Str)
    (hkeys : (ts.map Prod.fst).Nodup)
    (hok : renamePairsOk ts)
    (long nlong short nshort : Str)
    (hl : (long, nlong) ∈ ts) (hs : (short, nshort) ∈ ts)
    (hsub : ∃ a b, long = a ++ short ++ b) (hne : short ≠ long) :
    apply_transformations_preserve_formatting ts s = tokenSubst (renameLookup ts) s
    ∧ renameLookup ts long = nlong := by
  have hempty : ts.isEmpty = false := by
    cases ts with
    | nil => simp at hl
    | cons p ts => rfl
  have hperm : List.Perm (sortLenDesc ts) ts := sortLenDesc_perm ts
  have hok' : renamePairsOk (sortLenDesc ts) := by
    intro p hp
    have hpts := hok p (hperm.mem_iff.mp hp)
    exact ⟨hpts.1, hpts.2.1, hpts.2.2.1, hpts.2.2.2.1,
      fun q hq => hpts.2.2.2.2 q (hperm.mem_iff.mp hq)⟩
  have hkeys' : ((sortLenDesc ts).map Prod.fst).Nodup :=
    ((hperm.map Prod.fst).nodup_iff).mpr hkeys
  have hfresh' : ∀ p ∈ sortLenDesc ts, ∀ q ∈ sortLenDesc ts, p.2 ≠ q.1 :=
    fun p hp q hq => (hok' p hp).2.2.2.2 q hq
  constructor
  · rw [apply_transformations_preserve_formatting, if_neg (by rw [hempty]; simp)]
    rw [foldl_applyPair_tokenSubst (sortLenDesc ts) hok' s]
    apply tokenSubst_congr
    intro r _
    rw [foldRename_eq_renameLookup (sortLenDesc ts) hkeys' hfresh' r]
    exact renameLookup_perm (sortLenDesc ts) ts hperm hkeys r
  · exact renameLookup_eq_of_mem ts hkeys long nlong hl

/-- **C1** — witness: a concrete run of the amended theorem on the map
`{item ↦ thing, item_id ↦ thing_id}` and a file with occurrences of both
names; whole-identifier occurrences of `item_id` all become `thing_id`. -/
theorem c1_witness :
    apply_transformations_preserve_formatting
        [(("item").data, ("thing").data), (("item_id").data, ("thing_id").data)]
        (("item_id = item + my_item_id").data)
      = tokenSubst
          (renameLookup [(("item").data, ("thing").data), (("item_id").data, ("thing_id").data)])
          (("item_id = item + my_item_id").data)
    ∧ renameLookup [(("item").data, ("thing").data), (("item_id").data, ("thing_id").data)]
        (("item_id").data) = ("thing_id").data :=
  c1_theorem
    [(("item").data, ("thing").data), (("item_id").data, ("thing_id").data)]
    (("item_id = item + my_item_id").data)
    (by decide) (by unfold renamePairsOk; decide)
    (("item_id").data) (("thing_id").data) (("item").data) (("thing").data)
    (by decide) (by decide)
    ⟨[], ('_' :: 'i' :: 'd' :: []), by decide⟩
    (by decide)

theorem char_le_iff_toNat (a b : Char) : (a ≤ b) ↔ a.toNat ≤ b.toNat := by
  rw [Char.le_def, UInt32.le_def]
  unfold Char.toNat UInt32.toNat
  simp [BitVec.le_def]

theorem char_eq_iff_toNat (a b : Char) : a = b ↔ a.toNat = b.toNat := by
  constructor
  · intro h; rw [h]
  · intro h
    have := congrArg Char.ofNat h
    rwa [Char.ofNat_toNat, Char.ofNat_toNat] at this

theorem toNat_ofNat_valid (n : Nat) (h : n < 55296) : (Char.ofNat n).toNat = n := by
  unfold Char.ofNat
  rw [dif_pos (Or.inl h)]
  unfold Char.ofNatAux Char.toNat
  simp only [UInt32.ofNat', UInt32.toNat]
  simp

theorem isUpperCh_iff (c : Char) : isUpperCh c = true ↔ 65 ≤ c.toNat ∧ c.toNat ≤ 90 := by
  rw [isUpperCh, Bool.and_eq_true, decide_eq_true_eq, decide_eq_true_eq,
    char_le_iff_toNat, char_le_iff_toNat]
  rfl

theorem isLowerCh_iff (c : Char) : isLowerCh c = true ↔ 97 ≤ c.toNat ∧ c.toNat ≤ 122 := by
  rw [isLowerCh, Bool.and_eq_true, decide_eq_true_eq, decide_eq_true_eq,
    char_le_iff_toNat, char_le_iff_toNat]
  rfl

theorem isDigitCh_iff (c : Char) : isDigitCh c = true ↔ 48 ≤ c.toNat ∧ c.toNat ≤ 57 := by
  rw [isDigitCh, Bool.and_eq_true, decide_eq_true_eq, decide_eq_true_eq,
    char_le_iff_toNat, char_le_iff_toNat]
  rfl

theorem not_lower_of_upper (c : Char) (h : isUpperCh c = true) : isLowerCh c = false := by
  rcases (isUpperCh_iff c).mp h with ⟨h1, h2⟩
  by_contra hx
  simp only [Bool.not_eq_false] at hx
  rcases (isLowerCh_iff c).mp hx with ⟨h3, _⟩
  omega

theorem not_upper_of_lower (c : Char) (h : isLowerCh c = true) : isUpperCh c = false := by
  rcases (isLowerCh_iff c).mp h with ⟨h1, h2⟩
  by_contra hx
  simp only [Bool.not_eq_false] at hx
  rcases (isUpperCh_iff c).mp hx with ⟨_, h4⟩
  omega

theorem toLower_eq_self (c : Char) (h : isUpperCh c = false) : c.toLower = c := by
  rw [Char.toLower, if_neg]
  intro hx
  rcases hx with ⟨h1, h2⟩
  rw [(isUpperCh_iff c).mpr ⟨h1, h2⟩] at h
  exact absurd h (by simp)

theorem toUpper_eq_self (c : Char) (h : isLowerCh c = false) : c.toUpper = c := by
  rw [Char.toUpper, if_neg]
  intro hx
  rcases hx with ⟨h1, h2⟩
  rw [(isLowerCh_iff c).mpr ⟨h1, h2⟩] at h
  exact absurd h (by simp)

theorem toLower_toNat_of_upper (c : Char) (h : isUpperCh c = true) :
    c.toLower.toNat = c.toNat + 32 := by
  rcases (isUpperCh_iff c).mp h with ⟨h1, h2⟩
  rw [Char.toLower, if_pos ⟨h1, h2⟩]
  exact toNat_ofNat_valid (c.toNat + 32) (by omega)

theorem toUpper_toNat_of_lower (c : Char) (h : isLowerCh c = true) :
    c.toUpper.toNat = c.toNat - 32 := by
  rcases (isLowerCh_iff c).mp h with ⟨h1, h2⟩
  rw [Char.toUpper, if_pos ⟨h1, h2⟩]
  exact toNat_ofNat_valid (c.toNat - 32) (by omega)

theorem isUpperCh_toLower (c : Char) : isUpperCh c.toLower = false := by
  by_cases h : isUpperCh c = true
  · rcases (isUpperCh_iff c).mp h with ⟨h1, h2⟩
    have := toLower_toNat_of_upper c h
    by_contra hx
    simp only [Bool.not_eq_false] at hx
    rcases (isUpperCh_iff _).mp hx with ⟨h3, h4⟩
    omega
  · rw [toLower_eq_self c (by simpa using h)]
    simpa using h

theorem isLowerCh_toUpper (c : Char) : isLowerCh c.toUpper = false := by
  by_cases h : isLowerCh c = true
  · rcases (isLowerCh_iff c).mp h with ⟨h1, h2⟩
    have := toUpper_toNat_of_lower c h
    by_contra hx
    simp only [Bool.not_eq_false] at hx
    rcases (isLowerCh_iff _).mp hx with ⟨h3, h4⟩
    omega
  · rw [toUpper_eq_self c (by simpa using h)]
    simpa using h

theorem toUpper_toLower_of_upper (c : Char) (h : isUpperCh c = true) :
    c.toLower.toUpper = c := by
  have hn := toLower_toNat_of_upper c h
  rcases (isUpperCh_iff c).mp h with ⟨h1, h2⟩
  have hlow : isLowerCh c.toLower = true := (isLowerCh_iff _).mpr (by omega)
  rcases (isLowerCh_iff _).mp hlow with ⟨h3, h4⟩
  rw [Char.toUpper, if_pos ⟨h3, h4⟩]
  rw [char_eq_iff_toNat]
  rw [toNat_ofNat_valid _ (by omega)]
  omega

theorem toLower_toUpper_of_lower (c : Char) (h : isLowerCh c = true) :
    c.toUpper.toLower = c := by
  have hn := toUpper_toNat_of_lower c h
  rcases (isLowerCh_iff c).mp h with ⟨h1, h2⟩
  have hup : isUpperCh c.toUpper = true := (isUpperCh_iff _).mpr (by omega)
  rcases (isUpperCh_iff _).mp hup with ⟨h3, h4⟩
  rw [Char.toLower, if_pos ⟨h3, h4⟩]
  rw [char_eq_iff_toNat]
  rw [toNat_ofNat_valid _ (by omega)]
  omega

theorem toUpper_idem (c : Char) : c.toUpper.toUpper = c.toUpper :=
  toUpper_eq_self _ (isLowerCh_toUpper c)

theorem toUpper_eq_underscore (c : Char) (h : c.toUpper = '_') : c = '_' := by
  by_cases hl : isLowerCh c = true
  · exfalso
    have := toUpper_toNat_of_lower c hl
    rcases (isLowerCh_iff c).mp hl with ⟨h1, h2⟩
    have h95 : c.toUpper.toNat = 95 := by rw [h]; rfl
    omega
  · rw [← toUpper_eq_self c (by simpa using hl)]
    exact h

theorem toLower_eq_underscore (c : Char) (h : c.toLower = '_') : c = '_' := by
  by_cases hl : isUpperCh c = true
  · exfalso
    have := toLower_toNat_of_upper c hl
    rcases (isUpperCh_iff c).mp hl with ⟨h1, h2⟩
    have h95 : c.toLower.toNat = 95 := by rw [h]; rfl
    omega
  · rw [← toLower_eq_self c (by simpa using hl)]
    exact h

theorem hasUnd_iff (s : Str) : hasUnd s = true ↔ '_' ∈ s := by
  rw [hasUnd, List.any_eq_true]
  constructor
  · rintro ⟨c, hc, he⟩
    rw [decide_eq_true_eq] at he
    subst he
    exact hc
  · intro h
    exact ⟨'_', h, by simp⟩

theorem pyLower_noUpper (s : Str) : ∀ c ∈ pyLower s, isUpperCh c = false := by
  intro c hc
  rcases List.mem_map.mp hc with ⟨d, _, hd⟩
  rw [← hd]
  exact isUpperCh_toLower d

theorem pyLower_of_noUpper (s : Str) (h : ∀ c ∈ s, isUpperCh c = false) :
    pyLower s = s := by
  induction s with
  | nil => rfl
  | cons c t ih =>
    rw [pyLower, List.map_cons]
    rw [toLower_eq_self c (h c (List.mem_cons_self c t))]
    have := ih (fun d hd => h d (List.mem_cons_of_mem c hd))
    rw [pyLower] at this
    rw [this]

theorem pyUpper_of_noLower (s : Str) (h : ∀ c ∈ s, isLowerCh c = false) :
    pyUpper s = s := by
  induction s with
  | nil => rfl
  | cons c t ih =>
    rw [pyUpper, List.map_cons]
    rw [toUpper_eq_self c (h c (List.mem_cons_self c t))]
    have := ih (fun d hd => h d (List.mem_cons_of_mem c hd))
    rw [pyUpper] at this
    rw [this]

theorem pyIsLower_noUpper (s : Str) (h : pyIsLower s = true) :
    ∀ c ∈ s, isUpperCh c = false := by
  intro c hc
  rw [pyIsLower, Bool.and_eq_true, List.all_eq_true] at h
  have := h.2 c hc
  by_contra hx
  simp only [Bool.not_eq_false] at hx
  have hcased : isCasedCh c = true := by
    rw [isCasedCh, isAlphaCh, hx]
    simp
  rw [hcased] at this
  simp at this
  exact absurd this (by rw [not_lower_of_upper c hx]; simp)

theorem pyIsUpper_noLower (s : Str) (h : pyIsUpper s = true) :
    ∀ c ∈ s, isLowerCh c = false := by
  intro c hc
  rw [pyIsUpper, Bool.and_eq_true, List.all_eq_true] at h
  have := h.2 c hc
  by_contra hx
  simp only [Bool.not_eq_false] at hx
  have hcased : isCasedCh c = true := by
    rw [isCasedCh, isAlphaCh, hx]
    simp
  rw [hcased] at this
  simp at this
  exact absurd this (by rw [not_upper_of_lower c hx]; simp)

theorem pyIsUpper_upper_of_alpha (s : Str) (h : pyIsUpper s = true) :
    ∀ c ∈ s, isAlphaCh c = true → isUpperCh c = true := by
  intro c hc ha
  rw [pyIsUpper, Bool.and_eq_true, List.all_eq_true] at h
  have := h.2 c hc
  rw [isCasedCh, ha] at this
  simpa using this

theorem not_digit_of_upper (c : Char) (h : isUpperCh c = true) : isDigitCh c = false := by
  rcases (isUpperCh_iff c).mp h with ⟨h1, h2⟩
  by_contra hx
  simp only [Bool.not_eq_false] at hx
  rcases (isDigitCh_iff c).mp hx with ⟨_, h4⟩
  omega

theorem sub1_of_noUpper : ∀ n (s : Str), s.length ≤ n →
    (∀ c ∈ s, isUpperCh c = false) → sub1 s = s := by
  intro n
  induction n with
  | zero =>
    intro s hs _
    have : s = [] := List.length_eq_zero.mp (Nat.le_zero.mp hs)
    subst this
    rfl
  | succ n ih =>
    intro s hs h
    match s with
    | [] => rfl
    | [c] => rfl
    | a :: b :: t =>
      have hb : isUpperCh b = false := h b (by simp)
      rw [sub1, hb]
      simp only [Bool.and_false, Bool.false_eq_true, if_false]
      congr 1
      exact ih (b :: t)
        (by simpa using Nat.lt_succ_iff.mp (Nat.lt_of_lt_of_le (by simp) hs))
        (fun c hc => h c (List.mem_cons_of_mem a hc))

theorem sub1_of_allUpper : ∀ n (s : Str), s.length ≤ n →
    (∀ c ∈ s, isUpperCh c = true) → sub1 s = s := by
  intro n
  induction n with
  | zero =>
    intro s hs _
    have : s = [] := List.length_eq_zero.mp (Nat.le_zero.mp hs)
    subst this
    rfl
  | succ n ih =>
    intro s hs h
    match s with
    | [] => rfl
    | [c] => rfl
    | a :: b :: t =>
      have ha : isUpperCh a = true := h a (by simp)
      have hcond : ((isLowerCh a || isDigitCh a) && isUpperCh b) = false := by
        rw [not_lower_of_upper a ha, not_digit_of_upper a ha]
        simp
      rw [sub1, hcond]
      simp only [Bool.false_eq_true, if_false]
      congr 1
      exact ih (b :: t)
        (by simpa using Nat.lt_succ_iff.mp (Nat.lt_of_lt_of_le (by simp) hs))
        (fun c hc => h c (List.mem_cons_of_mem a hc))

theorem sub2Go_of_noUpper (s : Str) (h : ∀ c ∈ s, isUpperCh c = false) :
    sub2Go [] s = s := by
  induction s with
  | nil => rfl
  | cons c t ih =>
    have hc : isUpperCh c = false := h c (List.mem_cons_self c t)
    rw [sub2Go, hc]
    simp only [Bool.false_eq_true, if_false, List.length_nil]
    rw [if_neg (by simp)]
    rw [ih (fun d hd => h d (List.mem_cons_of_mem c hd))]
    rfl

theorem sub2Go_of_allUpper (s : Str) (h : ∀ c ∈ s, isUpperCh c = true) :
    ∀ acc : Str, sub2Go acc s = acc ++ s := by
  induction s with
  | nil => intro acc; simp [sub2Go]
  | cons c t ih =>
    intro acc
    have hc : isUpperCh c = true := h c (List.mem_cons_self c t)
    rw [sub2Go, hc]
    simp only [if_true]
    rw [ih (fun d hd => h d (List.mem_cons_of_mem c hd)) (acc ++ [c])]
    simp

theorem splitUnd_no_und (s : Str) : ∀ p ∈ splitUnd s, '_' ∉ p := by
  induction s with
  | nil =>
    intro p hp
    simp only [splitUnd, List.mem_singleton] at hp
    subst hp
    simp
  | cons c t ih =>
    intro p hp
    by_cases hc : c = '_'
    · rw [splitUnd, if_pos hc] at hp
      rcases List.mem_cons.mp hp with he | hm
      · subst he; simp
      · exact ih p hm
    · rw [splitUnd, if_neg hc] at hp
      rcases hsp : splitUnd t with _ | ⟨w, ws⟩
      · rw [hsp] at hp
        simp only [List.mem_singleton] at hp
        subst hp
        intro hx
        rcases List.mem_singleton.mp hx with he
        exact hc he.symm
      · rw [hsp] at hp
        rcases List.mem_cons.mp hp with he | hm
        · subst he
          intro hx
          rcases List.mem_cons.mp hx with he2 | hm2
          · exact hc he2.symm
          · exact ih w (by rw [hsp]; exact List.mem_cons_self w ws) hm2
        · exact ih p (by rw [hsp]; exact List.mem_cons_of_mem w hm)

theorem pyCapitalize_no_und (w : Str) (h : '_' ∉ w) : '_' ∉ pyCapitalize w := by
  cases w with
  | nil => simp [pyCapitalize]
  | cons c t =>
    rw [pyCapitalize]
    intro hx
    rcases List.mem_cons.mp hx with he | hm
    · have hcu : c = '_' := toUpper_eq_underscore c he.symm
      subst hcu
      exact h (List.mem_cons_self _ t)
    · rcases List.mem_map.mp hm with ⟨d, hd, hde⟩
      have : d = '_' := toLower_eq_underscore d hde
      subst this
      exact h (List.mem_cons_of_mem c hd)

theorem flatten_caps_shape (ws : List Str) (h : ∀ w ∈ ws, w ≠ []) :
    (ws.map pyCapitalize).flatten = [] ∨
      ∃ (d : Char) (rest : Str), (ws.map pyCapitalize).flatten = d.toUpper :: rest := by
  induction ws with
  | nil => left; rfl
  | cons w ws ih =>
    have hw : w ≠ [] := h w (List.mem_cons_self w ws)
    match w, hw with
    | c :: t, _ =>
      right
      refine ⟨c, pyLower t ++ (ws.map pyCapitalize).flatten, ?_⟩
      simp [pyCapitalize]

/-- **C9** — counterexample to the claim as stated.  `A9X` conforms to
`UPPER_CASE` (the source's own `detect_naming_convention` says so), yet
`to_upper_case` rewrites it to `A9_X` — the digit–uppercase boundary rule
inserts an underscore.  Hence `to_upper_case` is neither the identity on
conforming names nor idempotent on its own output
(`a9x ↦ A9X ↦ A9_X`); `to_camel_case` is likewise not idempotent on its
own output (`_foo ↦ Foo ↦ foo`). -/
theorem c9_counterexample :
    detect_naming_convention (("A9X").data) = ("UPPER_CASE").data
    ∧ to_upper_case (("A9X").data) = ("A9_X").data
    ∧ ("A9_X").data ≠ ("A9X").data
    ∧ to_upper_case (to_upper_case (("a9x").data)) ≠ to_upper_case (("a9x").data)
    ∧ to_camel_case (to_camel_case (("_foo").data)) ≠ to_camel_case (("_foo").data) := by
  decide

theorem pyUpper_pyLower_of_allUpper (s : Str) (h : ∀ c ∈ s, isUpperCh c = true) :
    pyUpper (pyLower s) = s := by
  induction s with
  | nil => rfl
  | cons c t ih =>
    show (c.toLower.toUpper) :: pyUpper (pyLower t) = c :: t
    rw [toUpper_toLower_of_upper c (h c (List.mem_cons_self c t))]
    rw [ih (fun d hd => h d (List.mem_cons_of_mem c hd))]

theorem snake_idempotent (s : Str) :
    to_snake_case (to_snake_case s) = to_snake_case s := by
  by_cases h : (hasUnd s && pyIsLower s) = true
  · have hss : to_snake_case s = s := by rw [to_snake_case, if_pos h]
    rw [hss]
    exact hss
  · have hy : to_snake_case s = pyLower (sub2 (sub1 s)) := by
      rw [to_snake_case, if_neg (by simpa using h)]
    rw [hy]
    have hnoU : ∀ c ∈ pyLower (sub2 (sub1 s)), isUpperCh c = false := pyLower_noUpper _
    by_cases h2 : (hasUnd (pyLower (sub2 (sub1 s)))
        && pyIsLower (pyLower (sub2 (sub1 s)))) = true
    · rw [to_snake_case, if_pos h2]
    · rw [to_snake_case, if_neg (by simpa using h2)]
      rw [sub1_of_noUpper (pyLower (sub2 (sub1 s))).length _ le_rfl hnoU]
      rw [sub2, sub2Go_of_noUpper _ hnoU]
      exact pyLower_of_noUpper _ hnoU

theorem pascal_idempotent (s : Str) :
    to_pascal_case (to_pascal_case s) = to_pascal_case s := by
  by_cases h : hasUnd s = true
  · have hy : to_pascal_case s =
        (((splitUnd (pyLower s)).filter (fun w => !w.isEmpty)).map pyCapitalize).flatten := by
      rw [to_pascal_case.eq_def, if_pos h]
    have hwnotnil : ∀ w ∈ (splitUnd (pyLower s)).filter (fun w => !w.isEmpty), w ≠ [] := by
      intro w hw
      have := (List.mem_filter.mp hw).2
      simpa using this
    have hwnound : ∀ w ∈ (splitUnd (pyLower s)).filter (fun w => !w.isEmpty), '_' ∉ w :=
      fun w hw => splitUnd_no_und (pyLower s) w (List.mem_filter.mp hw).1
    have hund : hasUnd
        ((((splitUnd (pyLower s)).filter (fun w => !w.isEmpty)).map pyCapitalize).flatten)
        = false := by
      by_contra hx
      simp only [Bool.not_eq_false] at hx
      rcases List.mem_flatten.mp ((hasUnd_iff _).mp hx) with ⟨piece, hpiece, hmem⟩
      rcases List.mem_map.mp hpiece with ⟨w, hw, hwp⟩
      exact pyCapitalize_no_und w (hwnound w hw) (hwp ▸ hmem)
    rw [hy]
    rcases flatten_caps_shape _ hwnotnil with hnil | ⟨d, rest, hshape⟩
    · rw [hnil]
      decide
    · rw [hshape]
      rw [to_pascal_case.eq_def, if_neg (by rw [← hshape, hund]; simp)]
      show d.toUpper.toUpper :: rest = d.toUpper :: rest
      rw [toUpper_idem]
  · have hnu : hasUnd s = false := by simpa using h
    cases s with
    | nil =>
      have h0 : to_pascal_case ([] : Str) = [] := by decide
      rw [h0]
      exact h0
    | cons c t =>
      have hbase : to_pascal_case (c :: t) = c.toUpper :: t := by
        rw [to_pascal_case.eq_def, if_neg (by rw [hnu]; simp)]
      have hnm : '_' ∉ c :: t := by
        intro hm
        exact absurd ((hasUnd_iff (c :: t)).mpr hm) (by rw [hnu]; simp)
      have hundy : hasUnd (c.toUpper :: t) = false := by
        by_contra hx
        simp only [Bool.not_eq_false] at hx
        rcases List.mem_cons.mp ((hasUnd_iff _).mp hx) with he | hm2
        · have hcu : c = '_' := toUpper_eq_underscore c he.symm
          exact hnm (by rw [hcu]; exact List.mem_cons_self _ t)
        · exact hnm (List.mem_cons_of_mem c hm2)
      rw [hbase]
      rw [to_pascal_case.eq_def, if_neg (by rw [hundy]; simp)]
      show c.toUpper.toUpper :: t = c.toUpper :: t
      rw [toUpper_idem]

theorem snake_conform (s : Str)
    (h : detect_naming_convention s = ("snake_case").data) : to_snake_case s = s := by
  rw [detect_naming_convention] at h
  split_ifs at h with h0 h1 h2 h3 h4 h5 h6
  · exact absurd h (by decide)
  · exact absurd h (by decide)
  · rw [to_snake_case, if_pos h2]
  · exact absurd h (by decide)
  · exact absurd h (by decide)
  · rw [Bool.and_eq_true] at h5
    have hlow : pyIsLower s = true := h5.1
    have hnu : hasUnd s = false := by
      have := h5.2
      simpa using this
    have hnoU := pyIsLower_noUpper s hlow
    rw [to_snake_case, if_neg (by rw [hnu]; simp)]
    rw [sub1_of_noUpper s.length s le_rfl hnoU]
    rw [sub2, sub2Go_of_noUpper s hnoU]
    exact pyLower_of_noUpper s hnoU
  · exact absurd h (by decide)
  · exact absurd h (by decide)

theorem camel_conform (s : Str)
    (h : detect_naming_convention s = ("camelCase").data) : to_camel_case s = s := by
  rw [detect_naming_convention] at h
  split_ifs at h with h0 h1 h2 h3 h4 h5 h6
  · exact absurd h (by decide)
  · exact absurd h (by decide)
  · exact absurd h (by decide)
  · exact absurd h (by decide)
  · simp only [Bool.and_eq_true] at h4
    have hnu : hasUnd s = false := by
      have := h4.1.1
      simpa using this
    have hhead : isLowerCh (s.headD ' ') = true := h4.1.2
    cases s with
    | nil => rfl
    | cons c t =>
      rw [to_camel_case.eq_def, if_neg (by rw [hnu]; simp)]
      simp only [List.headD_cons] at hhead
      show c.toLower :: t = c :: t
      rw [toLower_eq_self c (not_upper_of_lower c hhead)]
  · exact absurd h (by decide)
  · exact absurd h (by decide)
  · exact absurd h (by decide)

theorem pascal_conform (s : Str)
    (h : detect_naming_convention s = ("PascalCase").data) : to_pascal_case s = s := by
  rw [detect_naming_convention] at h
  split_ifs at h with h0 h1 h2 h3 h4 h5 h6
  · exact absurd h (by decide)
  · exact absurd h (by decide)
  · exact absurd h (by decide)
  · simp only [Bool.and_eq_true] at h3
    have hnu : hasUnd s = false := by
      have := h3.1.1
      simpa using this
    have hhead : isUpperCh (s.headD ' ') = true := h3.1.2
    cases s with
    | nil => rfl
    | cons c t =>
      rw [to_pascal_case.eq_def, if_neg (by rw [hnu]; simp)]
      simp only [List.headD_cons] at hhead
      show c.toUpper :: t = c :: t
      rw [toUpper_eq_self c (not_lower_of_upper c hhead)]
  · exact absurd h (by decide)
  · exact absurd h (by decide)
  · exact absurd h (by decide)
  · exact absurd h (by decide)

theorem upper_fix_core (s : Str) (hup : pyIsUpper s = true)
    (halpha : ∀ c ∈ s, isAlphaCh c = true ∨ c = '_') : to_upper_case s = s := by
  by_cases hu : hasUnd s = true
  · rw [to_upper_case, if_pos hu]
    exact pyUpper_of_noLower s (pyIsUpper_noLower s hup)
  · have hnu : hasUnd s = false := by simpa using hu
    have hall : ∀ c ∈ s, isUpperCh c = true := by
      intro c hc
      rcases halpha c hc with ha | ha
      · exact pyIsUpper_upper_of_alpha s hup c hc ha
      · exact absurd ((hasUnd_iff s).mpr (ha ▸ hc)) (by rw [hnu]; simp)
    rw [to_upper_case, if_neg (by rw [hnu]; simp)]
    rw [to_snake_case, if_neg (by rw [hnu]; simp)]
    rw [sub1_of_allUpper s.length s le_rfl hall]
    rw [sub2, sub2Go_of_allUpper s hall []]
    rw [List.nil_append]
    exact pyUpper_pyLower_of_allUpper s hall

theorem upper_conform (s : Str)
    (h : detect_naming_convention s = ("UPPER_CASE").data)
    (halpha : ∀ c ∈ s, isAlphaCh c = true ∨ c = '_') : to_upper_case s = s := by
  rw [detect_naming_convention] at h
  split_ifs at h with h0 h1 h2 h3 h4 h5 h6
  · exact absurd h (by decide)
  · rw [Bool.and_eq_true] at h1
    exact upper_fix_core s h1.1 halpha
  · exact absurd h (by decide)
  · exact absurd h (by decide)
  · exact absurd h (by decide)
  · exact absurd h (by decide)
  · rw [Bool.and_eq_true] at h6
    exact upper_fix_core s h6.1 halpha
  · exact absurd h (by decide)

/-- **C9** (amended).  `to_snake_case` and `to_pascal_case` are idempotent
on every input and return already-conforming names unchanged;
`to_camel_case` and `to_pascal_case` return detect-conforming names
unchanged; `to_upper_case` returns a conforming name unchanged only when
the name consists of letters and underscores — on an uppercase word
containing a digit directly before a letter (`A9X`) it inserts an
underscore, which is what the counterexample exhibits. -/
theorem c9_theorem :
    (∀ s : Str, to_snake_case (to_snake_case s) = to_snake_case s)
    ∧ (∀ s : Str, to_pascal_case (to_pascal_case s) = to_pascal_case s)
    ∧ (∀ s : Str, detect_naming_convention s = ("snake_case").data → to_snake_case s = s)
    ∧ (∀ s : Str, detect_naming_convention s = ("camelCase").data → to_camel_case s = s)
    ∧ (∀ s : Str, detect_naming_convention s = ("PascalCase").data → to_pascal_case s = s)
    ∧ (∀ s : Str, detect_naming_convention s = ("UPPER_CASE").data →
        (∀ c ∈ s, isAlphaCh c = true ∨ c = '_') → to_upper_case s = s) :=
  ⟨snake_idempotent, pascal_idempotent, snake_conform, camel_conform, pascal_conform,
    upper_conform⟩

/-- **C9** — witness: the amended theorem applied at concrete conforming
names of each style. -/
theorem c9_witness :
    to_snake_case (to_snake_case (("helloWorld").data)) = to_snake_case (("helloWorld").data)
    ∧ to_pascal_case (to_pascal_case (("mixed_Set").data)) = to_pascal_case (("mixed_Set").data)
    ∧ to_snake_case (("foo_bar").data) = ("foo_bar").data
    ∧ to_camel_case (("fooBar").data) = ("fooBar").data
    ∧ to_pascal_case (("FooBar").data) = ("FooBar").data
    ∧ to_upper_case (("FOO_BAR").data) = ("FOO_BAR").data :=
  ⟨c9_theorem.1 (("helloWorld").data),
   c9_theorem.2.1 (("mixed_Set").data),
   c9_theorem.2.2.1 (("foo_bar").data) (by decide),
   c9_theorem.2.2.2.1 (("fooBar").data) (by decide),
   c9_theorem.2.2.2.2.1 (("FooBar").data) (by decide),
   c9_theorem.2.2.2.2.2 (("FOO_BAR").data) (by decide) (by decide)⟩

theorem alistGet_nil {α : Type} (k : Str) : alistGet ([] : List (Str × α)) k = none := rfl

theorem alistGet_cons_eq {α : Type} (p : Str × α) (d : List (Str × α)) (k : Str)
    (h : p.1 = k) : alistGet (p :: d) k = some p.2 := by
  rw [alistGet, List.find?_cons_of_pos _ (by simp [h])]
  rfl

theorem alistGet_cons_ne {α : Type} (p : Str × α) (d : List (Str × α)) (k : Str)
    (h : p.1 ≠ k) : alistGet (p :: d) k = alistGet d k := by
  rw [alistGet, List.find?_cons_of_neg _ (by simp [h]), alistGet]

theorem dictInsert_get {α : Type} (kv : Str × α) (d : List (Str × α)) (k : Str) :
    alistGet (dictInsert kv d) k = if kv.1 = k then some kv.2 else alistGet d k := by
  induction d with
  | nil =>
    by_cases h : kv.1 = k
    · rw [dictInsert, if_pos h, alistGet_cons_eq kv [] k h]
    · rw [dictInsert, if_neg h, alistGet_cons_ne kv [] k h]
  | cons p d ih =>
    rw [dictInsert]
    by_cases hp : p.1 = kv.1
    · rw [if_pos hp]
      by_cases h : kv.1 = k
      · rw [if_pos h, alistGet_cons_eq kv d k h]
      · rw [if_neg h, alistGet_cons_ne kv d k h, alistGet_cons_ne p d k (by rw [hp]; exact h)]
    · rw [if_neg hp]
      by_cases h : p.1 = k
      · rw [alistGet_cons_eq p _ k h, alistGet_cons_eq p d k h]
        rw [if_neg (by rw [← h]; exact fun hx => hp hx.symm)]
      · rw [alistGet_cons_ne p _ k h, alistGet_cons_ne p d k h, ih]

theorem alistGet_mem_keys {α : Type} (d : List (Str × α)) (k : Str) (v : α)
    (h : alistGet d k = some v) : k ∈ d.map Prod.fst := by
  induction d with
  | nil =>
    rw [alistGet_nil] at h
    exact Option.noConfusion h
  | cons p d ih =>
    by_cases hp : p.1 = k
    · rw [List.map_cons, hp]
      exact List.mem_cons_self k _
    · rw [alistGet_cons_ne p d k hp] at h
      exact List.mem_cons_of_mem _ (ih h)

theorem alistGet_eq_none_of_not_mem {α : Type} (d : List (Str × α)) (k : Str)
    (h : k ∉ d.map Prod.fst) : alistGet d k = none := by
  induction d with
  | nil => exact alistGet_nil k
  | cons p d ih =>
    rw [List.map_cons] at h
    have hp : p.1 ≠ k := fun hx => h (hx ▸ List.mem_cons_self p.1 _)
    rw [alistGet_cons_ne p d k hp]
    exact ih (fun hx => h (List.mem_cons_of_mem _ hx))

theorem alistGet_isSome_of_mem {α : Type} (d : List (Str × α)) (k : Str)
    (h : k ∈ d.map Prod.fst) : alistGet d k ≠ none := by
  induction d with
  | nil => exact absurd h (by intro hx; exact (List.not_mem_nil k) (by simpa using hx))
  | cons p d ih =>
    by_cases hp : p.1 = k
    · rw [alistGet_cons_eq p d k hp]
      exact fun hx => Option.noConfusion hx
    · rw [alistGet_cons_ne p d k hp]
      rw [List.map_cons] at h
      rcases List.mem_cons.mp h with he | hm
      · exact absurd he.symm hp
      · exact ih hm

theorem foldl_dictInsert_get {α : Type} (a : List (Str × α))
    (ha : (a.map Prod.fst).Nodup) :
    ∀ (d : List (Str × α)) (k : Str),
      alistGet (a.foldl (fun d kv => dictInsert kv d) d) k =
        if k ∈ a.map Prod.fst then alistGet a k else alistGet d k := by
  induction a with
  | nil =>
    intro d k
    rw [List.foldl_nil, if_neg (by simp)]
  | cons kv rest ih =>
    intro d k
    rw [List.foldl_cons]
    rw [List.map_cons] at ha
    have hnodup : (rest.map Prod.fst).Nodup := (List.nodup_cons.mp ha).2
    have hknotin : kv.1 ∉ rest.map Prod.fst := (List.nodup_cons.mp ha).1
    rw [ih hnodup (dictInsert kv d) k]
    by_cases hmem : k ∈ rest.map Prod.fst
    · rw [if_pos hmem, if_pos (by rw [List.map_cons]; exact List.mem_cons_of_mem _ hmem)]
      have hne : kv.1 ≠ k := fun hx => hknotin (hx ▸ hmem)
      rw [alistGet_cons_ne kv rest k hne]
    · rw [if_neg hmem, dictInsert_get kv d k]
      by_cases he : kv.1 = k
      · rw [if_pos he, if_pos (by rw [List.map_cons, he]; exact List.mem_cons_self k _)]
        rw [alistGet_cons_eq kv rest k he]
      · rw [if_neg he, if_neg (by
          rw [List.map_cons]
          intro hx
          rcases List.mem_cons.mp hx with h1 | h2
          · exact he h1.symm
          · exact hmem h2)]

/-- **C4** (confirmed).  When the per-file transformer merges the
file-local rename map with the project-wide map
(`{**local_transformations, **cross_file_transformations}`,
`src/core/rule_engine.py` line 288), a name present in both maps gets the
project-wide new name, and a name present in only one map keeps that map's
value. -/
theorem c4_theorem (loc cross : List (Str × Str))
    (hl : (loc.map Prod.fst).Nodup) (hc : (cross.map Prod.fst).Nodup) (k : Str) :
    (∀ v, alistGet cross k = some v → alistGet (pyDictMerge loc cross) k = some v)
    ∧ (alistGet cross k = none → alistGet (pyDictMerge loc cross) k = alistGet loc k) := by
  have hmain : alistGet (pyDictMerge loc cross) k =
      if k ∈ cross.map Prod.fst then alistGet cross k
      else if k ∈ loc.map Prod.fst then alistGet loc k else none := by
    rw [pyDictMerge, foldl_dictInsert_get cross hc _ k]
    by_cases hm : k ∈ cross.map Prod.fst
    · rw [if_pos hm, if_pos hm]
    · rw [if_neg hm, if_neg hm, foldl_dictInsert_get loc hl [] k]
      by_cases hm2 : k ∈ loc.map Prod.fst
      · rw [if_pos hm2, if_pos hm2]
      · rw [if_neg hm2, if_neg hm2, alistGet_nil]
  constructor
  · intro v hv
    rw [hmain, if_pos (alistGet_mem_keys cross k v hv)]
    exact hv
  · intro hv
    rw [hmain, if_neg (fun hm => alistGet_isSome_of_mem cross k hm hv)]
    by_cases hm2 : k ∈ loc.map Prod.fst
    · rw [if_pos hm2]
    · rw [if_neg hm2, alistGet_eq_none_of_not_mem loc k hm2]

/-- **C4** — witness at a concrete pair of maps sharing the key `a`. -/
theorem c4_witness :
    (∀ v, alistGet [(("a").data, ("crossA").data)] (("a").data) = some v →
      alistGet (pyDictMerge [(("a").data, ("locA").data), (("b").data, ("locB").data)]
        [(("a").data, ("crossA").data)]) (("a").data) = some v)
    ∧ (alistGet [(("a").data, ("crossA").data)] (("b").data) = none →
      alistGet (pyDictMerge [(("a").data, ("locA").data), (("b").data, ("locB").data)]
        [(("a").data, ("crossA").data)]) (("b").data)
        = alistGet [(("a").data, ("locA").data), (("b").data, ("locB").data)] (("b").data)) :=
  ⟨(c4_theorem [(("a").data, ("locA").data), (("b").data, ("locB").data)]
      [(("a").data, ("crossA").data)] (by decide) (by decide) (("a").data)).1,
   (c4_theorem [(("a").data, ("locA").data), (("b").data, ("locB").data)]
      [(("a").data, ("crossA").data)] (by decide) (by decide) (("b").data)).2⟩

theorem mem_genFold (cfg : ConfigM) (m : GlobalSymbolMapM) :
    ∀ (l : List (Str × List SymbolDefinitionM)) (acc : List GlobalTransformationM)
      (t : GlobalTransformationM),
      t ∈ l.foldl (fun acc kv =>
        match genSymbolTransformation cfg m kv.1 kv.2 with
        | some t => acc ++ [t]
        | none => acc) acc →
      t ∈ acc ∨ ∃ kv ∈ l, genSymbolTransformation cfg m kv.1 kv.2 = some t := by
  intro l
  induction l with
  | nil =>
    intro acc t ht
    rw [List.foldl_nil] at ht
    exact Or.inl ht
  | cons kv l ih =>
    intro acc t ht
    rw [List.foldl_cons] at ht
    rcases hgen : genSymbolTransformation cfg m kv.1 kv.2 with _ | t0
    · rw [hgen] at ht
      rcases ih acc t ht with h | ⟨kv', hkv', hg⟩
      · exact Or.inl h
      · exact Or.inr ⟨kv', List.mem_cons_of_mem kv hkv', hg⟩
    · rw [hgen] at ht
      rcases ih (acc ++ [t0]) t ht with h | ⟨kv', hkv', hg⟩
      · rcases List.mem_append.mp h with h1 | h2
        · exact Or.inl h1
        · have : t = t0 := List.mem_singleton.mp h2
          subst this
          exact Or.inr ⟨kv, List.mem_cons_self kv l, hgen⟩
      · exact Or.inr ⟨kv', List.mem_cons_of_mem kv hkv', hg⟩

theorem genSymbol_old_name (cfg : ConfigM) (m : GlobalSymbolMapM)
    (sn : Str) (ds : List SymbolDefinitionM) (t : GlobalTransformationM)
    (h : genSymbolTransformation cfg m sn ds = some t) : t.old_name = sn := by
  unfold genSymbolTransformation at h
  split at h
  · exact Option.noConfusion h
  · split at h
    · exact Option.noConfusion h
    · split at h
      · exact Option.noConfusion h
      · split at h
        · have := Option.some.inj h
          rw [← this]
        · exact Option.noConfusion h

theorem alist_unique {α : Type} (l : List (Str × α)) (h : (l.map Prod.fst).Nodup)
    (k : Str) (v v' : α) (h1 : (k, v) ∈ l) (h2 : (k, v') ∈ l) : v = v' := by
  induction l with
  | nil => simp at h1
  | cons p l ih =>
    rw [List.map_cons] at h
    have hp := List.nodup_cons.mp h
    rcases List.mem_cons.mp h1 with he1 | hm1
    · rcases List.mem_cons.mp h2 with he2 | hm2
      · rw [← he1] at he2
        exact (Prod.ext_iff.mp he2).2.symm
      · exfalso
        apply hp.1
        have hpk : p.1 = k := by rw [← he1]
        rw [hpk]
        exact List.mem_map.mpr ⟨(k, v'), hm2, rfl⟩
    · rcases List.mem_cons.mp h2 with he2 | hm2
      · exfalso
        apply hp.1
        have hpk : p.1 = k := by rw [← he2]
        rw [hpk]
        exact List.mem_map.mpr ⟨(k, v), hm1, rfl⟩
      · exact ih hp.2 hm1 hm2

theorem getTransformedName_const_disabled (cfg : ConfigM) (e : CodeElementM)
    (hconst : e.element_type = ("constant").data)
    (hdis : cfg.ruleEnabled (("constant_naming").data) = false) :
    getTransformedName cfg e = none := by
  have hck : elementTypeConfigKey (("constant").data) = some (("constants").data) := by decide
  have hrn : elementTypeRule (("constant").data) = some (("constant_naming").data) := by decide
  unfold getTransformedName
  rw [hconst, hck, hrn]
  simp [hdis]

theorem getTransformedName_const_noconv (cfg : ConfigM) (e : CodeElementM)
    (hconst : e.element_type = ("constant").data)
    (hconv : cfg.namingConvention (("constants").data) = none) :
    getTransformedName cfg e = none := by
  have hck : elementTypeConfigKey (("constant").data) = some (("constants").data) := by decide
  have hrn : elementTypeRule (("constant").data) = some (("constant_naming").data) := by decide
  unfold getTransformedName
  rw [hconst, hck, hrn]
  by_cases hen : cfg.ruleEnabled (("constant_naming").data) = true
  · simp [hen, hconv]
  · simp [hen]

/-- **C8** (confirmed).  A symbol whose canonical (primary) definition has
kind `constant` produces zero entries in the generated rename plan when
the constant policy is disabled, when no target convention is configured,
or when the computed new name equals the symbol name. -/
theorem c8_theorem (cfg : ConfigM) (m : GlobalSymbolMapM)
    (hkeys : (m.definitions.map Prod.fst).Nodup)
    (symbol : Str) (defs : List SymbolDefinitionM)
    (hmem : (symbol, defs) ∈ m.definitions)
    (pd : SymbolDefinitionM) (hpd : getPrimaryDefinition defs = some pd)
    (hconst : pd.element.element_type = ("constant").data)
    (hskip : cfg.ruleEnabled (("constant_naming").data) = false
      ∨ cfg.namingConvention (("constants").data) = none
      ∨ getTransformedName cfg pd.element = some symbol) :
    (generateGlobalTransformations cfg m).filter
      (fun t => t.old_name == symbol) = [] := by
  rw [List.filter_eq_nil]
  intro t ht hpred
  have heq : t.old_name = symbol := by simpa using hpred
  rcases mem_genFold cfg m m.definitions [] t ht with h0 | ⟨kv, hkv, hgen⟩
  · simp at h0
  · have hks : kv.1 = symbol := by
      rw [← genSymbol_old_name cfg m kv.1 kv.2 t hgen]
      exact heq
    have hkvmem : (symbol, kv.2) ∈ m.definitions := by
      rw [← hks]
      exact hkv
    have hkv2 : kv.2 = defs := alist_unique m.definitions hkeys symbol kv.2 defs hkvmem hmem
    rw [hks, hkv2] at hgen
    -- the per-symbol body skips this symbol
    have hnone : getTransformedName cfg pd.element = none
        ∨ getTransformedName cfg pd.element = some symbol := by
      rcases hskip with h | h | h
      · exact Or.inl (getTransformedName_const_disabled cfg pd.element hconst h)
      · exact Or.inl (getTransformedName_const_noconv cfg pd.element hconst h)
      · exact Or.inr h
    cases defs with
    | nil => exact Option.noConfusion hpd
    | cons d ds =>
      unfold genSymbolTransformation at hgen
      rw [hpd] at hgen
      rcases hnone with h | h
      · simp [h] at hgen
      · simp [h] at hgen

/-- Witness for C8 at a concrete one-symbol project whose constant rule is
disabled. -/
theorem c8_witness :
    ((mapC8.definitions.map Prod.fst).Nodup
      ∧ ((("MAX_SIZE").data, [defC8]) ∈ mapC8.definitions)
      ∧ getPrimaryDefinition [defC8] = some defC8
      ∧ defC8.element.element_type = ("constant").data)
    ∧ (generateGlobalTransformations cfgC8 mapC8).filter
        (fun t => t.old_name == (("MAX_SIZE").data)) = [] :=
  ⟨⟨by decide, by decide, by decide, by decide⟩,
   c8_theorem cfgC8 mapC8 (by decide) (("MAX_SIZE").data) [defC8] (by decide)
     defC8 (by decide) (by decide) (Or.inl rfl)⟩

theorem backupPath_ne (p : Str) : ¬ (backupPath p = p) := by
  intro h
  have hlen := congrArg List.length h
  simp [backupPath] at hlen

/-- **C2** (confirmed).  After an in-place write the target file holds the
full new content if the write succeeded, and the full original content if
the write failed (restored from the backup); it is never left with the
half-written bytes. -/
theorem c2_theorem (fs : FSm) (p newContent orig : Str) (att : WriteAttempt)
    (hex : fs p = some orig) :
    ((writeInPlace fs p newContent att).2 = true →
      (writeInPlace fs p newContent att).1 p = some newContent)
    ∧ ((writeInPlace fs p newContent att).2 = false →
      (writeInPlace fs p newContent att).1 p = some orig) := by
  have hbp : ¬ (backupPath p = p) := backupPath_ne p
  have hpb : ¬ (p = backupPath p) := fun h => hbp h.symm
  cases att with
  | ok =>
    refine ⟨fun _ => ?_, fun h => ?_⟩
    · simp [writeInPlace, fsSet, hbp, hpb]
    · simp [writeInPlace] at h
  | fail leftover =>
    refine ⟨fun h => ?_, fun _ => ?_⟩
    · simp [writeInPlace, fsSet, hbp, hpb, hex] at h
    · simp [writeInPlace, fsSet, hbp, hpb, hex]

/-- **C10** (confirmed).  Whether the in-place write returns normally or
raises, the sibling `.backup` file does not exist afterwards. -/
theorem c10_theorem (fs : FSm) (p newContent orig : Str) (att : WriteAttempt)
    (hex : fs p = some orig) :
    (writeInPlace fs p newContent att).1 (backupPath p) = none := by
  have hbp : ¬ (backupPath p = p) := backupPath_ne p
  cases att with
  | ok => simp [writeInPlace, fsSet]
  | fail leftover => simp [writeInPlace, fsSet, hbp, hex]

/-- Witness for C2 at a concrete one-file system, applied at both a
successful and a failing write attempt. -/
theorem c2_witness :
    (fsC2 (("a.py").data) = some (("old").data))
    ∧ (writeInPlace fsC2 (("a.py").data) (("new").data) WriteAttempt.ok).1
        (("a.py").data) = some (("new").data)
    ∧ (writeInPlace fsC2 (("a.py").data) (("new").data)
        (WriteAttempt.fail (("ne").data))).1 (("a.py").data) = some (("old").data) :=
  ⟨by decide,
   (c2_theorem fsC2 (("a.py").data) (("new").data) (("old").data)
     WriteAttempt.ok (by decide)).1 (by decide),
   (c2_theorem fsC2 (("a.py").data) (("new").data) (("old").data)
     (WriteAttempt.fail (("ne").data)) (by decide)).2 (by decide)⟩

/-- Witness for C10 at the same concrete system, for both outcomes. -/
theorem c10_witness :
    (fsC2 (("a.py").data) = some (("old").data))
    ∧ (writeInPlace fsC2 (("a.py").data) (("new").data) WriteAttempt.ok).1
        (backupPath (("a.py").data)) = none
    ∧ (writeInPlace fsC2 (("a.py").data) (("new").data)
        (WriteAttempt.fail (("ne").data))).1 (backupPath (("a.py").data)) = none :=
  ⟨by decide,
   c10_theorem fsC2 (("a.py").data) (("new").data) (("old").data)
     WriteAttempt.ok (by decide),
   c10_theorem fsC2 (("a.py").data) (("new").data) (("old").data)
     (WriteAttempt.fail (("ne").data)) (by decide)⟩

theorem processGroups_append (dec : Nat → GuiDecision) (a b : List FileGroupM)
    (st : ApplyState) :
    processGroups dec (a ++ b) st = processGroups dec b (processGroups dec a st) := by
  simp [processGroups, List.foldl_append]

theorem processGroup_quit (dec : Nat → GuiDecision) (st : ApplyState)
    (g : FileGroupM) (h : st.quitReq = true) : processGroup dec st g = st := by
  simp [processGroup, h]

theorem processGroups_quit (dec : Nat → GuiDecision) (gs : List FileGroupM)
    (st : ApplyState) (h : st.quitReq = true) : processGroups dec gs st = st := by
  induction gs with
  | nil => rfl
  | cons g gs ih =>
    show processGroups dec gs (processGroup dec st g) = st
    rw [processGroup_quit dec st g h, ih]

theorem applyWrite_frame (fs : FSm) (r : ProcessingResultM) (p : Str)
    (h1 : ¬ (p = r.file_path)) (h2 : ¬ (p = backupPath r.file_path)) :
    applyWrite fs r p = fs p := by
  simp [applyWrite, fsSet, h1, h2]

theorem foldl_applyWrite_frame (rs : List ProcessingResultM) (fs : FSm) (p : Str)
    (h : ∀ r ∈ rs, ¬ (p = r.file_path) ∧ ¬ (p = backupPath r.file_path)) :
    rs.foldl applyWrite fs p = fs p := by
  induction rs generalizing fs with
  | nil => rfl
  | cons r rs ih =>
    rw [List.foldl_cons]
    rw [ih (applyWrite fs r) (fun q hq => h q (List.mem_cons_of_mem r hq))]
    exact applyWrite_frame fs r p (h r (List.mem_cons_self r rs)).1
      (h r (List.mem_cons_self r rs)).2

theorem pdf_applyAll (dec : Nat → GuiDecision) (st : ApplyState) (g : FileGroupM)
    (h : st.applyAll = true) :
    processDefinitionFile dec st g
      = ({ st with fs := applyWrite st.fs g.definition_file }, true, false) := by
  simp [processDefinitionFile, h]

theorem pdf_skipAll (dec : Nat → GuiDecision) (st : ApplyState) (g : FileGroupM)
    (ha : st.applyAll = false) (hs : st.skipAll = true) :
    processDefinitionFile dec st g = (st, false, false) := by
  simp [processDefinitionFile, ha, hs]

theorem pdf_quit (dec : Nat → GuiDecision) (st : ApplyState) (g : FileGroupM)
    (ha : st.applyAll = false) (hs : st.skipAll = false)
    (hd : dec st.idx = GuiDecision.quit) :
    processDefinitionFile dec st g
      = ({ st with idx := st.idx + 1, quitReq := true }, false, true) := by
  simp [processDefinitionFile, ha, hs, hd]

theorem pdf_yes (dec : Nat → GuiDecision) (st : ApplyState) (g : FileGroupM)
    (toAll : Bool) (ha : st.applyAll = false) (hs : st.skipAll = false)
    (hd : dec st.idx = GuiDecision.yes toAll) :
    processDefinitionFile dec st g
      = ({ st with
            idx := st.idx + 1
            applyAll := toAll
            fs := applyWrite st.fs g.definition_file }, true, false) := by
  simp [processDefinitionFile, ha, hs, hd]

theorem pdf_no (dec : Nat → GuiDecision) (st : ApplyState) (g : FileGroupM)
    (toAll : Bool) (ha : st.applyAll = false) (hs : st.skipAll = false)
    (hd : dec st.idx = GuiDecision.no toAll) :
    processDefinitionFile dec st g
      = ({ st with idx := st.idx + 1, skipAll := toAll }, false, false) := by
  simp [processDefinitionFile, ha, hs, hd]

theorem processGroup_frame (dec : Nat → GuiDecision) (st : ApplyState)
    (g : FileGroupM) (p : Str) (h : p ∉ groupPaths g) :
    (processGroup dec st g).fs p = st.fs p := by
  have hd1 : ¬ (p = g.definition_file.file_path) := by
    intro he
    apply h
    unfold groupPaths
    exact List.mem_flatMap.mpr ⟨g.definition_file,
      List.mem_cons_self _ _, by rw [he]; exact List.mem_cons_self _ _⟩
  have hd2 : ¬ (p = backupPath g.definition_file.file_path) := by
    intro he
    apply h
    unfold groupPaths
    exact List.mem_flatMap.mpr ⟨g.definition_file, List.mem_cons_self _ _,
      by rw [he]; exact List.mem_cons_of_mem _ (List.mem_cons_self _ _)⟩
  have hu : ∀ r ∈ g.usage_files,
      ¬ (p = r.file_path) ∧ ¬ (p = backupPath r.file_path) := by
    intro r hr
    constructor
    · intro he
      apply h
      unfold groupPaths
      exact List.mem_flatMap.mpr ⟨r, List.mem_cons_of_mem _ hr,
        by rw [he]; exact List.mem_cons_self _ _⟩
    · intro he
      apply h
      unfold groupPaths
      exact List.mem_flatMap.mpr ⟨r, List.mem_cons_of_mem _ hr,
        by rw [he]; exact List.mem_cons_of_mem _ (List.mem_cons_self _ _)⟩
  cases hq : st.quitReq with
  | true => rw [processGroup_quit dec st g hq]
  | false =>
    cases ha : st.applyAll with
    | true =>
      simp only [processGroup, hq, Bool.false_eq_true, if_false,
        pdf_applyAll dec st g ha]
      show List.foldl applyWrite (applyWrite st.fs g.definition_file) g.usage_files p
        = st.fs p
      rw [foldl_applyWrite_frame g.usage_files _ p hu]
      exact applyWrite_frame st.fs g.definition_file p hd1 hd2
    | false =>
      cases hs : st.skipAll with
      | true =>
        simp [processGroup, hq, pdf_skipAll dec st g ha hs]
      | false =>
        cases hdec : dec st.idx with
        | quit =>
          simp [processGroup, hq, pdf_quit dec st g ha hs hdec]
        | yes toAll =>
          simp only [processGroup, hq, Bool.false_eq_true, if_false,
            pdf_yes dec st g toAll ha hs hdec]
          show List.foldl applyWrite (applyWrite st.fs g.definition_file) g.usage_files p
            = st.fs p
          rw [foldl_applyWrite_frame g.usage_files _ p hu]
          exact applyWrite_frame st.fs g.definition_file p hd1 hd2
        | no toAll =>
          simp [processGroup, hq, pdf_no dec st g toAll ha hs hdec]

theorem processGroups_frame (dec : Nat → GuiDecision) (gs : List FileGroupM)
    (st : ApplyState) (p : Str) (h : p ∉ touchedPaths gs) :
    (processGroups dec gs st).fs p = st.fs p := by
  induction gs generalizing st with
  | nil => rfl
  | cons g gs ih =>
    have hg : p ∉ groupPaths g := by
      intro hm
      exact h (by unfold touchedPaths
                  exact List.mem_flatMap.mpr ⟨g, List.mem_cons_self _ _, hm⟩)
    have hgs : p ∉ touchedPaths gs := by
      intro hm
      apply h
      unfold touchedPaths at hm ⊢
      rcases List.mem_flatMap.mp hm with ⟨g', hg', hp'⟩
      exact List.mem_flatMap.mpr ⟨g', List.mem_cons_of_mem _ hg', hp'⟩
    show (processGroups dec gs (processGroup dec st g)).fs p = st.fs p
    rw [ih (processGroup dec st g) hgs]
    exact processGroup_frame dec st g p hg

/-- **C3** (confirmed).  If the confirmation channel answers Quit at group
`g` (reached with neither apply-all nor skip-all in force and no earlier
quit), the loop stops: the file system is exactly what the groups before
`g` produced — their applied files stay written — and every path not
touched by those earlier groups (in particular every file of `g`, its
cascaded usage files, and all later groups) still holds its original
content. -/
theorem c3_theorem (dec : Nat → GuiDecision) (pre post : List FileGroupM)
    (g : FileGroupM) (st0 : ApplyState)
    (hq : (processGroups dec pre st0).quitReq = false)
    (ha : (processGroups dec pre st0).applyAll = false)
    (hs : (processGroups dec pre st0).skipAll = false)
    (hdec : dec (processGroups dec pre st0).idx = GuiDecision.quit) :
    (processGroups dec (pre ++ g :: post) st0).fs = (processGroups dec pre st0).fs
    ∧ ∀ p, p ∉ touchedPaths pre →
        (processGroups dec (pre ++ g :: post) st0).fs p = st0.fs p := by
  have hsplit : processGroups dec (pre ++ g :: post) st0
      = processGroups dec post (processGroup dec (processGroups dec pre st0) g) := by
    rw [processGroups_append]
    rfl
  have hg : processGroup dec (processGroups dec pre st0) g
      = { processGroups dec pre st0 with
            idx := (processGroups dec pre st0).idx + 1
            quitReq := true } := by
    simp only [processGroup, hq, Bool.false_eq_true, if_false,
      pdf_quit dec (processGroups dec pre st0) g ha hs hdec]
  have hfix := processGroups_quit dec post
    { processGroups dec pre st0 with
        idx := (processGroups dec pre st0).idx + 1
        quitReq := true } rfl
  constructor
  · rw [hsplit, hg, hfix]
  · intro p hp
    rw [hsplit, hg, hfix]
    exact processGroups_frame dec pre st0 p hp

/-- Witness for C3: one group applied, then Quit at the second group; the
second group's definition file and its cascaded usage file keep their
original contents. -/
theorem c3_witness :
    ((processGroups decC3 [g1C3] st0C3).quitReq = false
      ∧ (processGroups decC3 [g1C3] st0C3).applyAll = false
      ∧ (processGroups decC3 [g1C3] st0C3).skipAll = false
      ∧ decC3 (processGroups decC3 [g1C3] st0C3).idx = GuiDecision.quit)
    ∧ (processGroups decC3 ([g1C3] ++ g2C3 :: []) st0C3).fs
        = (processGroups decC3 [g1C3] st0C3).fs
    ∧ (processGroups decC3 ([g1C3] ++ g2C3 :: []) st0C3).fs (("b.py").data)
        = st0C3.fs (("b.py").data)
    ∧ (processGroups decC3 ([g1C3] ++ g2C3 :: []) st0C3).fs (("c.py").data)
        = st0C3.fs (("c.py").data) :=
  ⟨⟨rfl, rfl, rfl, rfl⟩,
   (c3_theorem decC3 [g1C3] [] g2C3 st0C3 rfl rfl rfl rfl).1,
   (c3_theorem decC3 [g1C3] [] g2C3 st0C3 rfl rfl rfl rfl).2
     (("b.py").data) (by decide),
   (c3_theorem decC3 [g1C3] [] g2C3 st0C3 rfl rfl rfl rfl).2
     (("c.py").data) (by decide)⟩

/-- **C6 counterexample.**  Three results with pairwise distinct paths:
two definition files whose renamed symbols are both referenced by the one
usage file.  The usage file becomes a cascaded member of *two* groups,
refuting "never in two groups". -/
theorem c6_counterexample :
    (rsC6.map (fun r => r.file_path)).Nodup
    ∧ isDefinitionFile d1C6 = true
    ∧ isDefinitionFile d2C6 = true
    ∧ isDefinitionFile uC6 = false
    ∧ (groupFiles rsC6).countP (fun g => decide (uC6 ∈ g.usage_files)) = 2 := by
  decide

theorem mem_mkGroup_usage (rs : List ProcessingResultM) (x r : ProcessingResultM)
    (hr : r ∈ (mkGroup rs x).usage_files) : r ∈ rs ∧ isDefinitionFile r = false := by
  have h1 := List.mem_filter.mp hr
  have h2 := List.mem_filter.mp h1.1
  refine ⟨h2.1, ?_⟩
  simpa using h2.2

/-- **C6** (amended).  With pairwise-distinct file paths: a definition
file owns exactly one group and is never a cascaded member; a usage file
never owns a definition group, and — the corrected part — it is either a
member of at least one definition group (possibly several, as the
counterexample shows) and then owns no group, or a member of none and
then owns exactly one singleton group. -/
theorem c6_theorem (rs : List ProcessingResultM)
    (hnodup : (rs.map (fun r => r.file_path)).Nodup)
    (d u : ProcessingResultM)
    (hd : d ∈ rs) (hdt : isDefinitionFile d = true)
    (hu : u ∈ rs) (hut : isDefinitionFile u = false) :
    ((groupFiles rs).countP (fun g => g.definition_file == d) = 1
      ∧ (groupFiles rs).countP (fun g => decide (d ∈ g.usage_files)) = 0)
    ∧ ((groupFiles rs).countP (fun g => decide (u ∈ g.usage_files)) = 0 →
        (groupFiles rs).countP (fun g => g.definition_file == u) = 1)
    ∧ (1 ≤ (groupFiles rs).countP (fun g => decide (u ∈ g.usage_files)) →
        (groupFiles rs).countP (fun g => g.definition_file == u) = 0) := by
  have hrsnd : rs.Nodup := List.Nodup.of_map _ hnodup
  have hinj : ∀ a ∈ rs, ∀ b ∈ rs, a.file_path = b.file_path → a = b :=
    fun a ha b hb hab => List.inj_on_of_nodup_map hnodup ha hb hab
  -- count of map parts as counts over the underlying lists
  have hsplit : ∀ p : FileGroupM → Bool, (groupFiles rs).countP p
      = (defFiles rs).countP (fun x => p (mkGroup rs x))
        + (orphanFiles rs).countP (fun x => p ⟨x, [], extractChangedSymbols x⟩) := by
    intro p
    rw [groupFiles, List.countP_append, List.countP_map, List.countP_map]
    rfl
  -- the B part never contains members
  have hBempty : ∀ x : ProcessingResultM,
      decide (u ∈ (⟨x, [], extractChangedSymbols x⟩ : FileGroupM).usage_files) = false := by
    intro x
    simp
  -- definition-ownership counts over defFiles
  have hdefCount : (defFiles rs).countP (fun x => x == d) = 1 := by
    have hmem : d ∈ defFiles rs := List.mem_filter.mpr ⟨hd, hdt⟩
    have hnd : (defFiles rs).Nodup := List.Nodup.filter _ hrsnd
    exact List.count_eq_one_of_mem hnd hmem
  have hdefZero : (defFiles rs).countP (fun x => x == u) = 0 := by
    apply List.countP_eq_zero.mpr
    intro x hx hbeq
    have hxu : x = u := by simpa using hbeq
    have := (List.mem_filter.mp hx).2
    rw [hxu, hut] at this
    exact Bool.noConfusion this
  have horphZero_d : (orphanFiles rs).countP (fun x => x == d) = 0 := by
    apply List.countP_eq_zero.mpr
    intro x hx hbeq
    have hxd : x = d := by simpa using hbeq
    have h1 := List.mem_filter.mp hx
    have h2 := List.mem_filter.mp h1.1
    have : isDefinitionFile x = false := by simpa using h2.2
    rw [hxd, hdt] at this
    exact Bool.noConfusion this
  refine ⟨⟨?_, ?_⟩, ?_, ?_⟩
  · -- d owns exactly one group
    rw [hsplit]
    have h1 : (defFiles rs).countP (fun x => (mkGroup rs x).definition_file == d)
        = (defFiles rs).countP (fun x => x == d) := List.countP_congr (fun x _ => Iff.rfl)
    have h2 : (orphanFiles rs).countP
          (fun x => (⟨x, [], extractChangedSymbols x⟩ : FileGroupM).definition_file == d)
        = (orphanFiles rs).countP (fun x => x == d) := List.countP_congr (fun x _ => Iff.rfl)
    rw [h1, h2, hdefCount, horphZero_d]
  · -- d is never a cascaded member
    rw [hsplit]
    have h1 : (defFiles rs).countP (fun x => decide (d ∈ (mkGroup rs x).usage_files)) = 0 := by
      apply List.countP_eq_zero.mpr
      intro x hx hdec
      have hmem : d ∈ (mkGroup rs x).usage_files := by simpa using hdec
      have := (mem_mkGroup_usage rs x d hmem).2
      rw [hdt] at this
      exact Bool.noConfusion this
    have h2 : (orphanFiles rs).countP
        (fun x => decide (d ∈ (⟨x, [], extractChangedSymbols x⟩ : FileGroupM).usage_files)) = 0 := by
      apply List.countP_eq_zero.mpr
      intro x hx hdec
      simp at hdec
    rw [h1, h2]
  · -- member of no group → owns exactly one singleton group
    intro hmc
    rw [hsplit] at hmc ⊢
    have h1 : (defFiles rs).countP (fun x => (mkGroup rs x).definition_file == u)
        = (defFiles rs).countP (fun x => x == u) := List.countP_congr (fun x _ => Iff.rfl)
    have h2 : (orphanFiles rs).countP
          (fun x => (⟨x, [], extractChangedSymbols x⟩ : FileGroupM).definition_file == u)
        = (orphanFiles rs).countP (fun x => x == u) := List.countP_congr (fun x _ => Iff.rfl)
    rw [h1, h2, hdefZero]
    -- from zero member count: u is in no definition group
    have hnoA : ∀ x ∈ defFiles rs, u ∉ (mkGroup rs x).usage_files := by
      intro x hx hmem
      have hz := Nat.eq_zero_of_add_eq_zero_right hmc
      have := List.countP_eq_zero.mp hz x hx
      exact this (by simpa using hmem)
    -- hence u's path is not linked
    have hnolink : u.file_path ∉ linkedPaths rs := by
      intro hlink
      rcases List.mem_flatMap.mp hlink with ⟨g, hg, hpath⟩
      rcases List.mem_map.mp hg with ⟨x, hx, hgx⟩
      rcases List.mem_map.mp hpath with ⟨r, hr, hrpath⟩
      rw [← hgx] at hr
      have hru : r = u :=
        hinj r (mem_mkGroup_usage rs x r hr).1 u hu hrpath
      rw [hru] at hr
      exact hnoA x hx hr
    have horph : u ∈ orphanFiles rs := by
      apply List.mem_filter.mpr
      refine ⟨List.mem_filter.mpr ⟨hu, by simp [hut]⟩, by simpa using hnolink⟩
    have hnd : (orphanFiles rs).Nodup :=
      List.Nodup.filter _ (List.Nodup.filter _ hrsnd)
    have hone : (orphanFiles rs).countP (fun x => x == u) = 1 :=
      List.count_eq_one_of_mem hnd horph
    rw [hone]
  · -- member of some group → owns no group
    intro hmc
    rw [hsplit] at hmc ⊢
    have h1 : (defFiles rs).countP (fun x => (mkGroup rs x).definition_file == u)
        = (defFiles rs).countP (fun x => x == u) := List.countP_congr (fun x _ => Iff.rfl)
    have h2 : (orphanFiles rs).countP
          (fun x => (⟨x, [], extractChangedSymbols x⟩ : FileGroupM).definition_file == u)
        = (orphanFiles rs).countP (fun x => x == u) := List.countP_congr (fun x _ => Iff.rfl)
    rw [h1, h2, hdefZero]
    -- some definition group contains u, so u is linked and not an orphan
    have hBz : (orphanFiles rs).countP
        (fun x => decide (u ∈ (⟨x, [], extractChangedSymbols x⟩ : FileGroupM).usage_files)) = 0 := by
      apply List.countP_eq_zero.mpr
      intro x hx hdec
      simp at hdec
    rw [hBz, Nat.add_zero] at hmc
    rcases List.countP_pos_iff.mp hmc with ⟨x, hx, hdec⟩
    have hmem : u ∈ (mkGroup rs x).usage_files := by simpa using hdec
    have hlink : u.file_path ∈ linkedPaths rs :=
      List.mem_flatMap.mpr ⟨mkGroup rs x, List.mem_map.mpr ⟨x, hx, rfl⟩,
        List.mem_map.mpr ⟨u, hmem, rfl⟩⟩
    have hnorph : (orphanFiles rs).countP (fun x => x == u) = 0 := by
      apply List.countP_eq_zero.mpr
      intro y hy hbeq
      have hyu : y = u := by simpa using hbeq
      have h3 := (List.mem_filter.mp hy).2
      rw [hyu] at h3
      simp at h3
      exact h3 hlink
    rw [hnorph]

/-- Witness for C6 at the counterexample project: the definition file
`d1.py` owns one group and is a member of none; the usage file `u.py`
owns none and is a member of some group. -/
theorem c6_witness :
    ((groupFiles rsC6).countP (fun g => g.definition_file == d1C6) = 1
      ∧ (groupFiles rsC6).countP (fun g => decide (d1C6 ∈ g.usage_files)) = 0)
    ∧ ((groupFiles rsC6).countP (fun g => decide (uC6 ∈ g.usage_files)) = 0 →
        (groupFiles rsC6).countP (fun g => g.definition_file == uC6) = 1)
    ∧ (1 ≤ (groupFiles rsC6).countP (fun g => decide (uC6 ∈ g.usage_files)) →
        (groupFiles rsC6).countP (fun g => g.definition_file == uC6) = 0) :=
  c6_theorem rsC6 (by decide) d1C6 uC6 (by decide) (by decide) (by decide) (by decide)

/-- **C5** (confirmed).  In any file whose line `k` is
`from mod import Foo as F`, updating import statements for the plan
`Foo → Thing` rewrites exactly that line to
`from mod import Thing as F`: the alias token `F` survives on the import
line and every other line — hence every other occurrence of `F` — is left
byte-identical. -/
theorem c5_theorem (lines : List Str) (k : Nat)
    (hk : lines.get? k = some importOldLineC5) :
    updateImports tsC5 [ndC5 k] lines = lines.set k importNewLineC5 := by
  have hlt : k < lines.length := List.get?_eq_some.mp hk |>.1
  have hget : lines.getD k [] = importOldLineC5 := by
    unfold List.getD
    rw [hk]
    rfl
  show updateImportFromNode tsC5 lines (ndC5 k) = lines.set k importNewLineC5
  unfold updateImportFromNode
  simp only [ndC5, Option.isSome_some, if_true, List.foldl_cons, List.foldl_nil]
  have hlook : alistGet tsC5 (("Foo").data) = some (("Thing").data) := by decide
  rw [hlook]
  simp only [Nat.add_sub_cancel]
  rw [if_pos hlt, hget]
  have hsub : subAsWord (("Foo").data) (("F").data) (("Thing").data) importOldLineC5
      = importNewLineC5 := by decide
  rw [hsub]
  rw [if_pos (by decide)]

/-- Witness for C5 at a concrete three-line file whose alias `F` is used
on the surrounding lines. -/
theorem c5_witness :
    linesC5w.get? 1 = some importOldLineC5
    ∧ updateImports tsC5 [ndC5 1] linesC5w = linesC5w.set 1 importNewLineC5 :=
  ⟨by decide, c5_theorem linesC5w 1 (by decide)⟩

/-- **C7 counterexample.**  A project with one good file and one file that
fails to parse: the failing file contributes zero records and the build
completes — but the warning list is *empty*, refuting "a warning is
recorded for it".  The helpers swallow `SyntaxError` silently, so the
loops' warning branches never see a parse failure. -/
theorem c7_counterexample :
    badC7.parses = false
    ∧ analyzeProject [goodC7, badC7] = analyzeProject [goodC7]
    ∧ (analyzeProject [goodC7, badC7]).warnings = [] := by
  decide

/-- **C7** (amended).  A file that fails to parse (and raises nothing
else) contributes zero definitions, zero usages and zero import records,
and the build completes with exactly the index of the remaining files —
but, contrary to the claim, no warning is recorded for it. -/
theorem c7_theorem (a b : List FileSpecM) (f : FileSpecM)
    (hp : f.parses = false) (he : f.otherError = false) :
    analyzeProject (a ++ f :: b) = analyzeProject (a ++ b) := by
  have h2 : ∀ st, analyzeStep2 st f = st := by
    intro st
    simp [analyzeStep2, analyzeFileImports, analyzeFileDefs, hp, he]
  have h3 : ∀ st, analyzeStep3 st f = st := by
    intro st
    simp [analyzeStep3, analyzeFileUsages, hp, he]
  have hfold2 : ∀ st : SymbolIndexM,
      (a ++ f :: b).foldl analyzeStep2 st = (a ++ b).foldl analyzeStep2 st := by
    intro st
    rw [List.foldl_append, List.foldl_append, List.foldl_cons, h2]
  have hfold3 : ∀ st : SymbolIndexM,
      (a ++ f :: b).foldl analyzeStep3 st = (a ++ b).foldl analyzeStep3 st := by
    intro st
    rw [List.foldl_append, List.foldl_append, List.foldl_cons, h3]
  unfold analyzeProject
  rw [hfold2, hfold3]

/-- Witness for C7: the parse-failing file sits between two good files
and the project index is exactly that of the two good files. -/
theorem c7_witness :
    badC7.parses = false ∧ badC7.otherError = false
    ∧ analyzeProject ([goodC7] ++ badC7 :: [goodC7]) = analyzeProject ([goodC7] ++ [goodC7]) :=
  ⟨by decide, by decide, c7_theorem [goodC7] [goodC7] badC7 (by decide) (by decide)⟩
